import Mathlib

/-!
# Verification of the go-rs Go rules engine

Shallow embedding of `src/game.rs`: the `GoPosition` grid with its
flood-fill capture search, the legality check `is_valid_move`, the move
application `process_move`, and the `GoGame` turn/history wrapper.

Machine-integer notes: the source uses `usize`. All reachable states have
`board_size * board_size` cells stored in a `Vec`, so `board_size ≤ 2^32`
and index arithmetic (`y * N + x`) is exact whenever `y*N + x < 2^64`;
wrap-around is modelled explicitly for `overflowing_sub(1)`/`add(1)` in
`get_surrounding_valid_indicies` (always applied to coordinates below
`2^32`).  `play_move` feeds *unchecked* caller coordinates into
`coord_to_index`, where a flat index of `2^64` or more would wrap in a
release build (and panic in a debug build); the `Nat` model of
`coord_to_index` is therefore exact only below `2^64`, and the one
theorem quantifying over unchecked coordinates (C3) carries that bound
as an explicit hypothesis.
-/

set_option autoImplicit false

namespace GoRs

/-- The three-valued cell tag from `game.rs` (`Player::Black/White/None`);
the spec calls the third value `Empty`. -/
inductive Player where
  | black
  | white
  | none
deriving DecidableEq, Repr

/-- The opposing color, as computed by the `match` blocks in
`process_move`, `check_for_capture` and `incr_turn`
(White ↦ Black, Black ↦ White, None ↦ None). -/
def opponent : Player → Player
  | Player.white => Player.black
  | Player.black => Player.white
  | Player.none => Player.none

/-- `GoPosition` from `game.rs`: the flat row-major grid plus the ko
marker (`board_size * board_size + 1` is the "no ko" sentinel). -/
structure GoPosition where
  board_size : Nat
  position : List Player
  ko : Nat
deriving DecidableEq, Repr

namespace GoPosition

/-- `GoPosition::new`. -/
def new (board_size : Nat) : GoPosition :=
  { board_size := board_size
    position := List.replicate (board_size * board_size) Player.none
    ko := board_size * board_size + 1 }

/-- Cell read `self.position[index]`.  The source indexes the `Vec`
directly (in-bounds on every reachable path); out-of-range reads default
to `Player.none` here. -/
def cell (p : GoPosition) (index : Nat) : Player :=
  p.position.getD index Player.none

/-- `GoPosition::coord_to_index`: `y * self.board_size + x`, computed in
`usize` by the source.  This `Nat` model agrees with the source exactly
when `y * board_size + x < 2^64` (true for all in-range coordinates of a
representable board); theorems that accept unchecked coordinates assume
that bound explicitly. -/
def coord_to_index (p : GoPosition) (x y : Nat) : Nat :=
  y * p.board_size + x

/-- `GoPosition::index_to_coord`: `(index % board_size, index / board_size)`. -/
def index_to_coord (p : GoPosition) (index : Nat) : Nat × Nat :=
  (index % p.board_size, index / p.board_size)

/-- `GoPosition::coord_is_valid`. -/
def coord_is_valid (p : GoPosition) (x y : Nat) : Bool :=
  if p.board_size ≤ x ∨ p.board_size ≤ y then false else true

end GoPosition

/-- `usize::MAX`. -/
def usizeMax : Nat := 2 ^ 64 - 1

/-- `x.overflowing_sub(1).0` on a `usize` value `x < 2^64`. -/
def overflowSub1 (x : Nat) : Nat :=
  if x = 0 then usizeMax else x - 1

/-- `x.overflowing_add(1).0` on a `usize` value `x < 2^64`. -/
def overflowAdd1 (x : Nat) : Nat :=
  if x = usizeMax then 0 else x + 1

namespace GoPosition

/-- `GoPosition::get_surrounding_valid_indicies` (sic): the four
orthogonal coordinate candidates in source order, kept when
`coord_is_valid` holds, mapped through `coord_to_index`. -/
def get_surrounding_valid_indicies (p : GoPosition) (index : Nat) : List Nat :=
  let c := p.index_to_coord index
  ([(overflowSub1 c.1, c.2), (overflowAdd1 c.1, c.2),
    (c.1, overflowSub1 c.2), (c.1, overflowAdd1 c.2)] : List (Nat × Nat)).filterMap
    (fun q => if p.coord_is_valid q.1 q.2 then some (p.coord_to_index q.1 q.2) else Option.none)

/-- The loop of `GoPosition::check_for_capture`, with explicit fuel.
The queue is a `VecDeque` popped from the back and extended at the back,
represented here with the list head as the back: `pop_back` takes the
head, `extend [s1, …, sk]` prepends `[sk, …, s1]`.  `visited` is the
`HashSet` (membership is all that is ever queried), `to_remove` the
result accumulator.  Returns `Option.none` only on fuel exhaustion. -/
def checkForCaptureAux (p : GoPosition) (thisC opp : Player) :
    Nat → List Nat → List Nat → List Nat → Option (List Nat)
  | 0, _, _, _ => Option.none
  | _ + 1, [], _, to_remove => some to_remove
  | fuel + 1, index :: rest, visited, to_remove =>
    let piece := p.cell index
    if piece = thisC then
      let sides := (p.get_surrounding_valid_indicies index).filter
        (fun s => decide (s ∉ visited))
      checkForCaptureAux p thisC opp fuel (sides.reverse ++ rest)
        (index :: visited) (to_remove ++ [index])
    else if piece = opp then
      checkForCaptureAux p thisC opp fuel rest (index :: visited) to_remove
    else
      some []

/-- Fuel that provably suffices for `checkForCaptureAux` (each loop
iteration strictly decreases `|queue| + 5·|unvisited cells|`). -/
def capture_fuel (p : GoPosition) : Nat :=
  5 * (p.board_size * p.board_size) + 2

/-- `GoPosition::check_for_capture`: empty seed short-circuits to `[]`,
otherwise the flood-fill loop runs with the seed's color. -/
def check_for_capture (p : GoPosition) (index : Nat) : List Nat :=
  match p.cell index with
  | Player.none => []
  | Player.white =>
      (checkForCaptureAux p Player.white Player.black (capture_fuel p) [index] [] []).getD []
  | Player.black =>
      (checkForCaptureAux p Player.black Player.white (capture_fuel p) [index] [] []).getD []

/-- `GoPosition::is_valid_move`, returned together with the final state
of `self` (the source takes `&mut self`, places the stone tentatively and
reverts it before returning). -/
def is_valid_move (p : GoPosition) (x y : Nat) (player : Player) : GoPosition × Bool :=
  if ¬ p.coord_is_valid x y then (p, false)
  else
    let index := p.coord_to_index x y
    if p.cell index ≠ Player.none then (p, false)
    else if player = Player.none then (p, false)
    else
      let ko_pos : Bool := decide (index = p.ko)
      let p1 : GoPosition := { p with position := p.position.set index player }
      let check := p1.check_for_capture index
      let check_surrounding := (p1.get_surrounding_valid_indicies index).all
        (fun i =>
          let captures := p1.check_for_capture i
          let capturing : Bool := if ko_pos = false then captures.isEmpty
            else decide (captures.length ≤ 1)
          decide (p1.cell i = player) || capturing)
      let p2 : GoPosition := { p1 with position := p1.position.set index Player.none }
      if check_surrounding = true ∧ check.isEmpty = false then (p2, false) else (p2, true)

/-- One iteration of the capture loop in `GoPosition::process_move`:
run `check_for_capture` on the side, set `ko` if the captured group is a
single stone, then clear every captured index. -/
def processSide (q : GoPosition) (s : Nat) : GoPosition :=
  let to_remove := q.check_for_capture s
  let q1 : GoPosition := if to_remove.length = 1
    then { q with ko := to_remove.headD 0 } else q
  { q1 with position := to_remove.foldl (fun l i => l.set i Player.none) q1.position }

/-- `GoPosition::process_move`: unconditional placement; early return
when the placed player is `None` (before the ko reset); otherwise reset
ko, collect the opposing neighbors of the placed stone once, and process
their captures in order. -/
def process_move (p : GoPosition) (x y : Nat) (player : Player) : GoPosition :=
  let index := p.coord_to_index x y
  let p0 : GoPosition := { p with position := p.position.set index player }
  match opponent player with
  | Player.none => p0
  | opp =>
    let p1 : GoPosition := { p0 with ko := p0.board_size * p0.board_size + 1 }
    let sides := (p1.get_surrounding_valid_indicies (p1.coord_to_index x y)).filter
      (fun i => decide (p1.cell i = opp))
    sides.foldl processSide p1

end GoPosition

/-- `Square` from `game.rs`. -/
structure Square where
  x : Nat
  y : Nat
deriving DecidableEq, Repr

/-- `Move` from `game.rs`. -/
inductive Move where
  | pass (player : Player) (half_turn : Nat)
  | play (player : Player) (square : Square) (half_turn : Nat)
deriving DecidableEq, Repr

/-- `GoGame` from `game.rs`. -/
structure GoGame where
  move_history : List Move
  position : GoPosition
  first_turn : Nat
  turn : Nat
  half_turn : Nat
  first_player : Player
  next_player : Player
deriving DecidableEq, Repr

namespace GoGame

/-- `GoGame::new`. -/
def new (board_size : Nat) : GoGame :=
  { move_history := []
    position := GoPosition.new board_size
    first_turn := 0
    turn := 0
    half_turn := 0
    first_player := Player.black
    next_player := Player.black }

/-- `GoGame::incr_turn`: bump `turn` when the *pre-flip* `next_player`
equals `first_player`, bump `half_turn`, then flip `next_player`. -/
def incr_turn (g : GoGame) : GoGame :=
  let g1 : GoGame := if g.next_player = g.first_player
    then { g with turn := g.turn + 1 } else g
  let g2 : GoGame := { g1 with half_turn := g1.half_turn + 1 }
  { g2 with next_player := opponent g2.next_player }

/-- `GoGame::pass`. -/
def pass (g : GoGame) : GoGame :=
  incr_turn { g with
    move_history := g.move_history ++ [Move.pass g.next_player g.half_turn] }

/-- The two error strings produced by `GoGame::play_move`. -/
def occupiedMsg : String := "A piece is already at that coordinate"

/-- The out-of-bounds error string of `GoGame::play_move`. -/
def invalidCoordMsg (board_size : Nat) : String :=
  "Invalid coordinate for board size " ++ toString board_size

/-- `GoGame::play_move`, returning the updated game and `some errorMsg`
in place of `Err(msg)` (`Option.none` is `Ok(())`). -/
def play_move (g : GoGame) (x y : Nat) : GoGame × Option String :=
  match g.position.position.get? (g.position.coord_to_index x y) with
  | some piece =>
    match piece with
    | Player.none =>
      let g1 : GoGame := { g with
        move_history := g.move_history ++
          [Move.play g.next_player { x := x, y := y } g.half_turn] }
      let g2 : GoGame := { g1 with
        position := g1.position.process_move x y g1.next_player }
      (incr_turn g2, Option.none)
    | _ => (g, some occupiedMsg)
  | Option.none => (g, some (invalidCoordMsg g.position.board_size))

end GoGame

/-- An external call to the engine: the public mutating surface is
exactly `play_move` and `pass`. -/
inductive Op where
  | pass
  | play (x y : Nat)
deriving DecidableEq, Repr

/-- One engine call. A failed `play_move` leaves the game unchanged. -/
def stepOp (g : GoGame) : Op → GoGame
  | Op.pass => g.pass
  | Op.play x y => (g.play_move x y).1

/-- The game reached from `GoGame::new board_size` by a call sequence. -/
def runOps (board_size : Nat) (ops : List Op) : GoGame :=
  ops.foldl stepOp (GoGame.new board_size)

/-- Representable positions: the cell vector has exactly
`board_size * board_size` entries and the board size fits a real `usize`
board (`N*N` cells storable implies `N ≤ 2^32`). -/
def WF (p : GoPosition) : Prop :=
  p.position.length = p.board_size * p.board_size ∧ p.board_size ≤ 2 ^ 32

/-- Spec-side notion: indices `a` and `b` of an `N×N` row-major grid name
orthogonally adjacent points (equal column and rows off by one, or equal
row and columns off by one). -/
def orthAdjacent (N a b : Nat) : Prop :=
  (a % N = b % N ∧ (a / N + 1 = b / N ∨ b / N + 1 = a / N)) ∨
  (a / N = b / N ∧ (a % N + 1 = b % N ∨ b % N + 1 = a % N))

/-- One step of same-color connectivity seen from the seed color `cl`:
`b` is an in-range orthogonal neighbor of `a` holding `cl`. -/
def groupStep (p : GoPosition) (cl : Player) (a b : Nat) : Prop :=
  b < p.board_size * p.board_size ∧ orthAdjacent p.board_size a b ∧ p.cell b = cl

/-- Spec-side notion: `t` belongs to the maximal same-color orthogonally
connected group containing the seed `s`. -/
def groupMem (p : GoPosition) (s t : Nat) : Prop :=
  Relation.ReflTransGen (groupStep p (p.cell s)) s t

/-- Spec-side notion: the group containing `s` has a liberty — an empty
in-range cell orthogonally adjacent to some member of the group. -/
def hasLiberty (p : GoPosition) (s : Nat) : Prop :=
  ∃ t n, groupMem p s t ∧ n < p.board_size * p.board_size ∧
    orthAdjacent p.board_size t n ∧ p.cell n = Player.none

/-- Instrumentation of the capture loop of `process_move`: the list of
`check_for_capture` results (one per opposing side), in evaluation order,
each computed on the position as it stands when that side is processed —
exactly the `to_remove` values the source's loop sees. -/
def captureTrace (p : GoPosition) : List Nat → List (List Nat)
  | [] => []
  | s :: rest => p.check_for_capture s :: captureTrace (p.processSide s) rest

/-- The value the ko marker ends with after a sequence of captures whose
removed groups are `caps`, starting from `k`: each single-stone capture
overwrites it, the last one evaluated wins. -/
def lastSingleton : List (List Nat) → Nat → Nat
  | [], k => k
  | tr :: rest, k => lastSingleton rest (if tr.length = 1 then tr.headD 0 else k)

/-- The ko part of the data-model invariant: a present ko marker points
at a currently empty cell. -/
def KoInv (p : GoPosition) : Prop :=
  p.ko < p.board_size * p.board_size → p.cell p.ko = Player.none

/-- Loop invariant of the `check_for_capture` traversal, for a seed `s`
of color `C`, with queue `q` (head = most recently pushed), visited set
`V` and accumulator `R`:
* `hq`: queue entries are in range and are the seed or neighbors of
  processed group cells;
* `hR`: accumulated cells hold `C` and belong to the seed's group;
* `hV`: visited cells are processed group cells or opposing stones;
* `hclosed`: every neighbor of a processed cell is visited or queued;
* `hseed`: the seed is processed or still queued;
* `hstack`: stack discipline — for a visited `C`-cell `d`, any unvisited
  neighbor `x` has a queue copy strictly newer than every copy of `d`
  (so popping a visited `C`-cell never pushes anything). -/
structure AuxInv (p : GoPosition) (s : Nat) (C : Player)
    (q V R : List Nat) : Prop where
  hq : ∀ i ∈ q, i < p.board_size * p.board_size ∧
    (i = s ∨ ∃ c ∈ R, i ∈ p.get_surrounding_valid_indicies c)
  hR : ∀ r ∈ R, p.cell r = C ∧ groupMem p s r
  hV : ∀ v ∈ V, (p.cell v = C ∧ v ∈ R) ∨ p.cell v = opponent C
  hclosed : ∀ r ∈ R, ∀ n ∈ p.get_surrounding_valid_indicies r, n ∈ V ∨ n ∈ q
  hseed : s ∈ R ∨ s ∈ q
  hstack : ∀ d ∈ V, p.cell d = C → ∀ x ∈ p.get_surrounding_valid_indicies d,
    x ∉ V → ∃ A B, q = A ++ x :: B ∧ d ∉ A

/-- Termination measure of the traversal: queue length plus five times
the number of unvisited board cells. -/
def auxMeasure (N : Nat) (q V : List Nat) : Nat :=
  q.length + 5 * ((Finset.range (N * N)).filter (fun c => c ∉ V)).card

/-! ## Coordinate arithmetic -/

theorem mod_mul_add {N y x : Nat} (hx : x < N) : (y * N + x) % N = x := by
  rw [Nat.add_comm, Nat.add_mul_mod_self_right, Nat.mod_eq_of_lt hx]

theorem div_mul_add {N y x : Nat} (hx : x < N) : (y * N + x) / N = y := by
  have hN : 0 < N := Nat.pos_of_ne_zero (by rintro rfl; exact Nat.not_lt_zero x hx)
  rw [Nat.add_comm, Nat.add_mul_div_right _ _ hN, Nat.div_eq_of_lt hx, Nat.zero_add]

theorem coord_is_valid_iff (p : GoPosition) (x y : Nat) :
    p.coord_is_valid x y = true ↔ x < p.board_size ∧ y < p.board_size := by
  unfold GoPosition.coord_is_valid
  split
  · simp only [Bool.false_eq_true, false_iff]
    omega
  · simp only [true_iff]
    omega

theorem index_lt_of_coord_lt {N x y : Nat} (hx : x < N) (hy : y < N) :
    y * N + x < N * N := by
  calc y * N + x < y * N + N := by omega
  _ = (y + 1) * N := by ring
  _ ≤ N * N := Nat.mul_le_mul_right N hy

/-- The source's neighbor list agrees with spec-side orthogonal
adjacency: for an in-range center on a representable board, the computed
neighbor indices are exactly the in-range orthogonally adjacent indices.
In particular the `overflowing_sub` wrap-around at coordinate 0 is always
rejected by `coord_is_valid`. -/
theorem mem_surrounding_iff (p : GoPosition) (hN : p.board_size ≤ 2 ^ 32)
    {a : Nat} (ha : a < p.board_size * p.board_size) (b : Nat) :
    b ∈ p.get_surrounding_valid_indicies a ↔
      b < p.board_size * p.board_size ∧ orthAdjacent p.board_size a b := by
  have hN0 : 0 < p.board_size := by
    rcases Nat.eq_zero_or_pos p.board_size with h0 | h
    · rw [h0] at ha; omega
    · exact h
  have hx : a % p.board_size < p.board_size := Nat.mod_lt _ hN0
  have hy : a / p.board_size < p.board_size := (Nat.div_lt_iff_lt_mul hN0).mpr ha
  have ha' : a = a / p.board_size * p.board_size + a % p.board_size := by
    rw [Nat.mul_comm]; exact (Nat.div_add_mod a p.board_size).symm
  have husize : ¬ (usizeMax < p.board_size) := by
    unfold usizeMax; omega
  unfold GoPosition.get_surrounding_valid_indicies GoPosition.index_to_coord
  simp only [List.mem_filterMap, List.mem_cons, List.not_mem_nil, or_false,
    Option.ite_none_right_eq_some, Option.some.injEq]
  constructor
  · rintro ⟨q, hq, hval, hidx⟩
    rw [coord_is_valid_iff] at hval
    subst hidx
    unfold GoPosition.coord_to_index
    rcases hq with rfl | rfl | rfl | rfl
    · -- (x-1, y)
      simp only at hval ⊢
      unfold overflowSub1 at hval ⊢
      by_cases hx0 : a % p.board_size = 0
      · rw [if_pos hx0] at hval; exact absurd hval.1 husize
      · rw [if_neg hx0] at hval ⊢
        refine ⟨index_lt_of_coord_lt hval.1 hval.2, Or.inr ?_⟩
        rw [mod_mul_add hval.1, div_mul_add hval.1]
        omega
    · -- (x+1, y)
      simp only at hval ⊢
      unfold overflowAdd1 at hval ⊢
      have hne : ¬ (a % p.board_size = usizeMax) := by unfold usizeMax; omega
      rw [if_neg hne] at hval ⊢
      refine ⟨index_lt_of_coord_lt hval.1 hval.2, Or.inr ?_⟩
      rw [mod_mul_add hval.1, div_mul_add hval.1]
      omega
    · -- (x, y-1)
      simp only at hval ⊢
      unfold overflowSub1 at hval ⊢
      by_cases hy0 : a / p.board_size = 0
      · rw [if_pos hy0] at hval; exact absurd hval.2 husize
      · rw [if_neg hy0] at hval ⊢
        refine ⟨index_lt_of_coord_lt hval.1 hval.2, Or.inl ?_⟩
        rw [mod_mul_add hval.1, div_mul_add hval.1]
        have hd0 : 0 < a / p.board_size := Nat.pos_of_ne_zero hy0
        omega
    · -- (x, y+1)
      simp only at hval ⊢
      unfold overflowAdd1 at hval ⊢
      have hne : ¬ (a / p.board_size = usizeMax) := by unfold usizeMax; omega
      rw [if_neg hne] at hval ⊢
      refine ⟨index_lt_of_coord_lt hval.1 hval.2, Or.inl ?_⟩
      rw [mod_mul_add hval.1, div_mul_add hval.1]
      omega
  · rintro ⟨hb, hadj⟩
    have hbx : b % p.board_size < p.board_size := Nat.mod_lt _ hN0
    have hby : b / p.board_size < p.board_size := (Nat.div_lt_iff_lt_mul hN0).mpr hb
    have hb' : b = b / p.board_size * p.board_size + b % p.board_size := by
      rw [Nat.mul_comm]; exact (Nat.div_add_mod b p.board_size).symm
    rcases hadj with ⟨hcol, hrow⟩ | ⟨hrow, hcol⟩
    · rcases hrow with hdown | hup
      · -- b is directly below a: a/p.board_size + 1 = b/p.board_size
        refine ⟨(a % p.board_size, overflowAdd1 (a / p.board_size)), by simp, ?_, ?_⟩
        · have hov : overflowAdd1 (a / p.board_size) = a / p.board_size + 1 := by
            unfold overflowAdd1 usizeMax; rw [if_neg (by omega)]
          simp only [hov]
          rw [coord_is_valid_iff]
          omega
        · have hov : overflowAdd1 (a / p.board_size) = a / p.board_size + 1 := by
            unfold overflowAdd1 usizeMax; rw [if_neg (by omega)]
          simp only [hov]
          unfold GoPosition.coord_to_index
          rw [hdown, hcol]
          exact hb'.symm
      · -- b is directly above a: b/p.board_size + 1 = a/p.board_size
        have ha0 : ¬ (a / p.board_size = 0) := by
          intro h0; rw [h0] at hup; exact Nat.succ_ne_zero _ hup
        have hov : overflowSub1 (a / p.board_size) = a / p.board_size - 1 := by
          unfold overflowSub1; rw [if_neg ha0]
        have hsub : a / p.board_size - 1 = b / p.board_size := by
          rw [← hup, Nat.add_sub_cancel]
        refine ⟨(a % p.board_size, overflowSub1 (a / p.board_size)), by simp, ?_, ?_⟩
        · simp only [hov]
          rw [coord_is_valid_iff, hsub]
          exact ⟨hx, hby⟩
        · simp only [hov]
          unfold GoPosition.coord_to_index
          rw [hsub, hcol]
          exact hb'.symm
    · rcases hcol with hright | hleft
      · -- b is to the right of a
        refine ⟨(overflowAdd1 (a % p.board_size), a / p.board_size), by simp, ?_, ?_⟩
        · have hov : overflowAdd1 (a % p.board_size) = a % p.board_size + 1 := by
            unfold overflowAdd1 usizeMax; rw [if_neg (by omega)]
          simp only [hov]
          rw [coord_is_valid_iff]
          omega
        · have hov : overflowAdd1 (a % p.board_size) = a % p.board_size + 1 := by
            unfold overflowAdd1 usizeMax; rw [if_neg (by omega)]
          simp only [hov]
          unfold GoPosition.coord_to_index
          rw [hright, hrow]
          exact hb'.symm
      · -- b is to the left of a
        have ha0 : ¬ (a % p.board_size = 0) := by
          intro h0; rw [h0] at hleft; exact Nat.succ_ne_zero _ hleft
        have hov : overflowSub1 (a % p.board_size) = a % p.board_size - 1 := by
          unfold overflowSub1; rw [if_neg ha0]
        have hsub : a % p.board_size - 1 = b % p.board_size := by
          rw [← hleft, Nat.add_sub_cancel]
        refine ⟨(overflowSub1 (a % p.board_size), a / p.board_size), by simp, ?_, ?_⟩
        · simp only [hov]
          rw [coord_is_valid_iff, hsub]
          exact ⟨hbx, hy⟩
        · simp only [hov]
          unfold GoPosition.coord_to_index
          rw [hsub, hrow]
          exact hb'.symm

theorem surrounding_length_le (p : GoPosition) (a : Nat) :
    (p.get_surrounding_valid_indicies a).length ≤ 4 := by
  unfold GoPosition.get_surrounding_valid_indicies
  exact Nat.le_trans (List.length_filterMap_le _ _) (by simp)

theorem not_mem_surrounding_self (p : GoPosition) (hN : p.board_size ≤ 2 ^ 32)
    {a : Nat} (ha : a < p.board_size * p.board_size) :
    a ∉ p.get_surrounding_valid_indicies a := by
  intro h
  rw [mem_surrounding_iff p hN ha] at h
  rcases h.2 with ⟨_, h2 | h2⟩ | ⟨_, h2 | h2⟩ <;> omega

/-! ## Group membership basics -/

theorem groupMem_lt {p : GoPosition} {s t : Nat}
    (hs : s < p.board_size * p.board_size) (h : groupMem p s t) :
    t < p.board_size * p.board_size := by
  induction h with
  | refl => exact hs
  | tail _ hstep _ => exact hstep.1

theorem groupMem_cell {p : GoPosition} {s t : Nat} (h : groupMem p s t) :
    p.cell t = p.cell s := by
  induction h with
  | refl => rfl
  | tail _ hstep _ => exact hstep.2.2

theorem groupMem_tail {p : GoPosition} {s t n : Nat} (h : groupMem p s t)
    (hn : n < p.board_size * p.board_size)
    (hadj : orthAdjacent p.board_size t n) (hc : p.cell n = p.cell s) :
    groupMem p s n :=
  Relation.ReflTransGen.tail h ⟨hn, hadj, hc⟩

/-! ## Turn bookkeeping: `incr_turn` field lemmas -/

@[simp] theorem incr_turn_move_history (g : GoGame) :
    g.incr_turn.move_history = g.move_history := by
  unfold GoGame.incr_turn; split <;> rfl

@[simp] theorem incr_turn_position (g : GoGame) :
    g.incr_turn.position = g.position := by
  unfold GoGame.incr_turn; split <;> rfl

@[simp] theorem incr_turn_half_turn (g : GoGame) :
    g.incr_turn.half_turn = g.half_turn + 1 := by
  unfold GoGame.incr_turn; split <;> rfl

@[simp] theorem incr_turn_next_player (g : GoGame) :
    g.incr_turn.next_player = opponent g.next_player := by
  unfold GoGame.incr_turn; split <;> rfl

@[simp] theorem incr_turn_first_player (g : GoGame) :
    g.incr_turn.first_player = g.first_player := by
  unfold GoGame.incr_turn; split <;> rfl

theorem incr_turn_turn (g : GoGame) :
    g.incr_turn.turn = if g.next_player = g.first_player then g.turn + 1 else g.turn := by
  unfold GoGame.incr_turn; split <;> rfl

/-! ## List helpers -/

theorem set_getD_none (l : List Player) (i : Nat)
    (h : l.getD i Player.none = Player.none) : l.set i Player.none = l := by
  induction l generalizing i with
  | nil => rfl
  | cons a t ih =>
    cases i with
    | zero =>
      simp only [List.getD_cons_zero] at h
      rw [h]; rfl
    | succ j =>
      simp only [List.getD_cons_succ] at h
      simp only [List.set_cons_succ, ih j h]

/-!
## C10 — coordinate bijection

`index_to_coordinate(coordinate_to_index(x, y)) == (x, y)` for all valid
coordinates on a board of size at least 1.
-/

/-- C10: for every board size `N ≥ 1` and every coordinate pair `(x, y)`
with `x < N` and `y < N`, `index_to_coord (coord_to_index x y) = (x, y)`. -/
theorem C10_coord_roundtrip (p : GoPosition) (x y : Nat)
    (hN : 1 ≤ p.board_size) (hx : x < p.board_size) (hy : y < p.board_size) :
    p.index_to_coord (p.coord_to_index x y) = (x, y) := by
  unfold GoPosition.index_to_coord GoPosition.coord_to_index
  rw [mod_mul_add hx, div_mul_add hx]

/-- Witness for C10 at a concrete input: board size 9, coordinate (4, 7). -/
theorem C10_coord_roundtrip_witness :
    1 ≤ (GoPosition.new 9).board_size ∧ 4 < (GoPosition.new 9).board_size ∧
      7 < (GoPosition.new 9).board_size ∧
      (GoPosition.new 9).index_to_coord ((GoPosition.new 9).coord_to_index 4 7) = (4, 7) :=
  ⟨by decide, by decide, by decide,
    C10_coord_roundtrip (GoPosition.new 9) 4 7 (by decide) (by decide) (by decide)⟩

/-!
## C4 — the legality check is transactional

`is_valid_move` restores the position on every exit path: the tentative
stone is placed only after the target cell is checked to be empty, and is
reverted to empty before either return.
-/

/-- C4: for every position state and all inputs, `is_valid_move` returns
the `GoPosition` exactly as it was — board size, every cell, and the ko
marker — on every exit path. -/
theorem C4_is_valid_move_preserves_state (p : GoPosition) (x y : Nat) (player : Player) :
    (p.is_valid_move x y player).1 = p := by
  unfold GoPosition.is_valid_move
  simp only []
  split
  · rfl
  · split
    · rfl
    · split
      · rfl
      · rename_i hval hcell hplayer
        have hcell' : p.position.getD (p.coord_to_index x y) Player.none = Player.none := by
          exact not_ne_iff.mp hcell
        have hrestore :
            (p.position.set (p.coord_to_index x y) player).set (p.coord_to_index x y)
              Player.none = p.position := by
          rw [List.set_set, set_getD_none _ _ hcell']
        split
        · simp only [hrestore]
          split <;> rfl
        · simp only [hrestore]
          split <;> rfl

/-! ## `pass` and `play_move` field lemmas -/

@[simp] theorem pass_move_history (g : GoGame) :
    g.pass.move_history = g.move_history ++ [Move.pass g.next_player g.half_turn] := by
  unfold GoGame.pass; rw [incr_turn_move_history]

@[simp] theorem pass_position (g : GoGame) : g.pass.position = g.position := by
  unfold GoGame.pass; rw [incr_turn_position]

@[simp] theorem pass_half_turn (g : GoGame) : g.pass.half_turn = g.half_turn + 1 := by
  unfold GoGame.pass; rw [incr_turn_half_turn]

@[simp] theorem pass_next_player (g : GoGame) :
    g.pass.next_player = opponent g.next_player := by
  unfold GoGame.pass; rw [incr_turn_next_player]

@[simp] theorem pass_first_player (g : GoGame) : g.pass.first_player = g.first_player := by
  unfold GoGame.pass; rw [incr_turn_first_player]

theorem pass_turn (g : GoGame) :
    g.pass.turn = if g.next_player = g.first_player then g.turn + 1 else g.turn := by
  unfold GoGame.pass; rw [incr_turn_turn]

theorem play_move_ok (g : GoGame) (x y : Nat) (h : (g.play_move x y).2 = Option.none) :
    (g.play_move x y).1 =
      GoGame.incr_turn
        { g with
          move_history := g.move_history ++
            [Move.play g.next_player { x := x, y := y } g.half_turn]
          position := g.position.process_move x y g.next_player } := by
  unfold GoGame.play_move at h ⊢
  cases hg : g.position.position.get? (g.position.coord_to_index x y) with
  | none => rw [hg] at h; exact absurd h (by simp)
  | some piece =>
    rw [hg] at h
    cases piece with
    | black => exact absurd h (by simp)
    | white => exact absurd h (by simp)
    | none => rfl

theorem play_move_fail (g : GoGame) (x y : Nat) (h : (g.play_move x y).2 ≠ Option.none) :
    (g.play_move x y).1 = g := by
  unfold GoGame.play_move at h ⊢
  cases hg : g.position.position.get? (g.position.coord_to_index x y) with
  | none => rfl
  | some piece =>
    rw [hg] at h
    cases piece with
    | black => rfl
    | white => rfl
    | none => exact absurd rfl h

theorem invalidCoordMsg_ne_occupiedMsg (n : Nat) :
    GoGame.invalidCoordMsg n ≠ GoGame.occupiedMsg := by
  intro h
  have h2 := congrArg String.data h
  unfold GoGame.invalidCoordMsg GoGame.occupiedMsg at h2
  rw [String.data_append] at h2
  have h3 : ("Invalid coordinate for board size ").data =
      'I' :: "nvalid coordinate for board size ".data := rfl
  have h4 : ("A piece is already at that coordinate").data =
      'A' :: " piece is already at that coordinate".data := rfl
  rw [h3, h4] at h2
  simp only [List.cons_append, List.cons.injEq] at h2
  exact absurd h2.1 (by decide)

/-!
## C3 — out-of-bounds handling of `play_move`

The claim says every coordinate with `x ≥ N` or `y ≥ N` is rejected with
the out-of-bounds error.  The code only checks the flattened index
`y*N + x` against the cell-vector length, so a coordinate such as
`(7, 0)` on a 5×5 board aliases into the in-range index 7 and the move is
silently played there.
-/

/-- Counterexample to C3 as stated: on a fresh 5×5 game, `play_move 7 0`
has `x = 7 ≥ 5` yet returns `Ok`, appends a history record, and changes
the game (a black stone appears at flat index 7 = cell (2,1)). -/
theorem C3_counterexample :
    (GoGame.new 5).position.board_size ≤ 7 ∧
      ((GoGame.new 5).play_move 7 0).2 = Option.none ∧
      ((GoGame.new 5).play_move 7 0).1.move_history.length = 1 ∧
      ((GoGame.new 5).play_move 7 0).1.position.cell 7 = Player.black := by
  decide

/-- C3 amended: for coordinates whose flat `usize` index does not
overflow (`y*N + x < 2^64`, so the `Nat` model of `coord_to_index` is
exact), `play_move` returns the out-of-bounds error — and leaves the
whole game unchanged — exactly when the flattened index `y*N + x` falls
outside the cell vector, i.e. `y*N + x ≥ N*N`; that error value is
distinct from the occupied-cell error.  Coordinates with `x ≥ N` whose
flattened index is still in range alias into that cell and are played
there.  (Coordinates whose flat index overflows wrap in a release build
and are outside this theorem's domain.) -/
theorem C3_amended (g : GoGame) (x y : Nat) (hwf : WF g.position)
    (hnowrap : y * g.position.board_size + x < 2 ^ 64) :
    ((g.play_move x y).2 = some (GoGame.invalidCoordMsg g.position.board_size) ↔
      g.position.board_size * g.position.board_size ≤
        y * g.position.board_size + x)
  ∧ (g.position.board_size * g.position.board_size ≤
        y * g.position.board_size + x →
      g.play_move x y = (g, some (GoGame.invalidCoordMsg g.position.board_size)))
  ∧ GoGame.invalidCoordMsg g.position.board_size ≠ GoGame.occupiedMsg := by
  have hidx : g.position.coord_to_index x y = y * g.position.board_size + x := rfl
  have hnone : g.position.position.get? (g.position.coord_to_index x y) = Option.none ↔
      g.position.board_size * g.position.board_size ≤ y * g.position.board_size + x := by
    rw [List.get?_eq_none, hidx, hwf.1]
  refine ⟨⟨?_, ?_⟩, ?_, invalidCoordMsg_ne_occupiedMsg _⟩
  · intro h
    unfold GoGame.play_move at h
    cases hg : g.position.position.get? (g.position.coord_to_index x y) with
    | none => exact hnone.mp hg
    | some piece =>
      rw [hg] at h
      cases piece with
      | black => simp only [Option.some.injEq] at h
                 exact absurd h.symm (invalidCoordMsg_ne_occupiedMsg _)
      | white => simp only [Option.some.injEq] at h
                 exact absurd h.symm (invalidCoordMsg_ne_occupiedMsg _)
      | none => exact absurd h (by simp)
  · intro h
    unfold GoGame.play_move
    rw [hnone.mpr h]
  · intro h
    unfold GoGame.play_move
    rw [hnone.mpr h]

/-!
## C9 — `move_history.len() == half_turn` is an invariant

`new` starts both at zero; `pass` and a successful `play_move` append one
record and bump `half_turn`; a failed `play_move` changes nothing.
-/

theorem step_preserves_history_half (g : GoGame) (op : Op)
    (h : g.move_history.length = g.half_turn) :
    (stepOp g op).move_history.length = (stepOp g op).half_turn := by
  cases op with
  | pass =>
    simp only [stepOp]
    rw [pass_move_history, pass_half_turn, List.length_append, h]
    rfl
  | play x y =>
    simp only [stepOp]
    by_cases hpm : (g.play_move x y).2 = Option.none
    · rw [play_move_ok g x y hpm, incr_turn_move_history, incr_turn_half_turn]
      simp only [List.length_append, List.length_cons, List.length_nil]
      omega
    · rw [play_move_fail g x y hpm, h]

theorem foldl_history_half (ops : List Op) :
    ∀ g : GoGame, g.move_history.length = g.half_turn →
      (ops.foldl stepOp g).move_history.length = (ops.foldl stepOp g).half_turn := by
  induction ops with
  | nil => intro g h; exact h
  | cons op rest ih =>
    intro g h
    exact ih _ (step_preserves_history_half g op h)

/-- C9: `move_history.len() == half_turn` holds for a fresh game and is
preserved by every operation — `pass` and a successful `play_move` append
exactly one record and bump `half_turn` by 1, a failed `play_move`
changes nothing; consequently the equality holds in every reachable
state. -/
theorem C9_history_length_invariant (n : Nat) (g : GoGame) (x y : Nat) (ops : List Op) :
    (GoGame.new n).move_history.length = (GoGame.new n).half_turn
  ∧ (g.pass.move_history.length = g.move_history.length + 1 ∧
     g.pass.half_turn = g.half_turn + 1)
  ∧ ((g.play_move x y).2 = Option.none →
      (g.play_move x y).1.move_history.length = g.move_history.length + 1 ∧
      (g.play_move x y).1.half_turn = g.half_turn + 1)
  ∧ ((g.play_move x y).2 ≠ Option.none → (g.play_move x y).1 = g)
  ∧ (runOps n ops).move_history.length = (runOps n ops).half_turn := by
  refine ⟨rfl, ⟨?_, pass_half_turn g⟩, ?_, play_move_fail g x y, ?_⟩
  · rw [pass_move_history, List.length_append]
    rfl
  · intro h
    rw [play_move_ok g x y h, incr_turn_move_history, incr_turn_half_turn]
    constructor
    · simp only [List.length_append, List.length_cons, List.length_nil]
    · rfl
  · exact foldl_history_half ops (GoGame.new n) rfl

/-- Witness for C9 at concrete inputs: the implications are discharged on
a fresh 2×2 game at the playable coordinate (0, 0). -/
theorem C9_history_length_invariant_witness :
    ((GoGame.new 2).play_move 0 0).2 = Option.none ∧
      ((GoGame.new 2).play_move 0 0).1.move_history.length =
        (GoGame.new 2).move_history.length + 1 := by
  refine ⟨by decide, ?_⟩
  exact ((C9_history_length_invariant 2 (GoGame.new 2) 0 0 []).2.2.1 (by decide)).1

/-!
## C7 — turn bookkeeping after each ply

The source bumps `turn` when the player who is about to make this ply
(the *pre-flip* `next_player`) equals `first_player`; the claim instead
ties the bump to the *post-flip* `next_player`.  On the very first ply of
a fresh game the code bumps `turn` to 1 while the updated `next_player`
(White) differs from `first_player` (Black), refuting the claim.
-/

/-- Counterexample to C7 as stated: after a single `pass` on a fresh
game, `half_turn` advanced by 1 but `turn` advanced by 1 even though the
updated `next_player` (White) is not `first_player` (Black). -/
theorem C7_counterexample :
    (runOps 2 [Op.pass]).half_turn = (runOps 2 []).half_turn + 1 ∧
      ¬ ((runOps 2 [Op.pass]).turn = (runOps 2 []).turn + 1 ↔
         (runOps 2 [Op.pass]).next_player = (runOps 2 []).first_player) := by
  decide

/-- C7 amended: after every successful `play_move` and every `pass`,
`half_turn` has increased by exactly 1, `next_player` has flipped
(Black↔White), and `turn` has increased by exactly 1 if and only if the
*pre-ply* `next_player` (the player who made this ply) equals
`first_player`; otherwise `turn` is unchanged. -/
theorem C7_amended_turn_advance (g : GoGame) (x y : Nat) :
    (g.pass.half_turn = g.half_turn + 1 ∧
     g.pass.next_player = opponent g.next_player ∧
     g.pass.turn = (if g.next_player = g.first_player then g.turn + 1 else g.turn))
  ∧ ((g.play_move x y).2 = Option.none →
      (g.play_move x y).1.half_turn = g.half_turn + 1 ∧
      (g.play_move x y).1.next_player = opponent g.next_player ∧
      (g.play_move x y).1.turn =
        (if g.next_player = g.first_player then g.turn + 1 else g.turn)) := by
  refine ⟨⟨pass_half_turn g, pass_next_player g, pass_turn g⟩, ?_⟩
  intro h
  rw [play_move_ok g x y h, incr_turn_half_turn, incr_turn_next_player, incr_turn_turn]
  exact ⟨rfl, rfl, rfl⟩

/-- Witness for the amended C7: fresh 2×2 game, successful move at
(0, 0). -/
theorem C7_amended_turn_advance_witness :
    ((GoGame.new 2).play_move 0 0).2 = Option.none ∧
      ((GoGame.new 2).play_move 0 0).1.turn =
        (if (GoGame.new 2).next_player = (GoGame.new 2).first_player
         then (GoGame.new 2).turn + 1 else (GoGame.new 2).turn) := by
  refine ⟨by decide, ?_⟩
  exact ((C7_amended_turn_advance (GoGame.new 2) 0 0).2 (by decide)).2.2

/-- Witness for the amended C3: a fresh 3×3 game with `(x, y) = (1, 3)`,
whose flat index `3*3 + 1 = 10` is out of range and far below `2^64`. -/
theorem C3_amended_witness :
    WF (GoGame.new 3).position ∧
      3 * (GoGame.new 3).position.board_size + 1 < 2 ^ 64 ∧
      (GoGame.new 3).position.board_size * (GoGame.new 3).position.board_size ≤
        3 * (GoGame.new 3).position.board_size + 1 ∧
      (GoGame.new 3).play_move 1 3 =
        (GoGame.new 3, some (GoGame.invalidCoordMsg (GoGame.new 3).position.board_size)) :=
  ⟨⟨by decide, by decide⟩, by decide, by decide,
    (C3_amended (GoGame.new 3) 1 3 ⟨by decide, by decide⟩ (by decide)).2.1 (by decide)⟩

/-! ## More list helpers for capture removal -/

theorem getD_set_none_self (l : List Player) (i : Nat) :
    (l.set i Player.none).getD i Player.none = Player.none := by
  induction l generalizing i with
  | nil => rfl
  | cons a t ih =>
    cases i with
    | zero => rfl
    | succ j => simpa using ih j

theorem getD_set_ne (l : List Player) (i j : Nat) (v : Player) (h : i ≠ j) :
    (l.set i v).getD j Player.none = l.getD j Player.none := by
  induction l generalizing i j with
  | nil => rfl
  | cons a t ih =>
    cases i with
    | zero =>
      cases j with
      | zero => exact absurd rfl h
      | succ j2 => rfl
    | succ i2 =>
      cases j with
      | zero => rfl
      | succ j2 => simpa using ih i2 j2 (by omega)

theorem set_none_getD_preserve (l : List Player) (i a : Nat)
    (h : l.getD a Player.none = Player.none) :
    (l.set i Player.none).getD a Player.none = Player.none := by
  by_cases hia : i = a
  · subst hia; exact getD_set_none_self l i
  · rw [getD_set_ne l i a Player.none hia]; exact h

theorem removeAll_getD_preserve (tr : List Nat) :
    ∀ l : List Player, ∀ a : Nat, l.getD a Player.none = Player.none →
      (tr.foldl (fun l2 i => l2.set i Player.none) l).getD a Player.none = Player.none := by
  induction tr with
  | nil => intro l a h; exact h
  | cons i tr2 ih =>
    intro l a h
    exact ih _ a (set_none_getD_preserve l i a h)

theorem removeAll_getD_mem (tr : List Nat) :
    ∀ l : List Player, ∀ a : Nat, a ∈ tr →
      (tr.foldl (fun l2 i => l2.set i Player.none) l).getD a Player.none = Player.none := by
  induction tr with
  | nil => intro l a h; exact absurd h (List.not_mem_nil a)
  | cons i tr2 ih =>
    intro l a h
    rcases List.mem_cons.mp h with rfl | h2
    · exact removeAll_getD_preserve tr2 _ a (getD_set_none_self l a)
    · exact ih _ a h2

/-! ## `processSide` and `process_move` structure lemmas -/

@[simp] theorem processSide_board_size (q : GoPosition) (s : Nat) :
    (q.processSide s).board_size = q.board_size := by
  unfold GoPosition.processSide
  simp only []
  split <;> rfl

theorem processSide_ko (q : GoPosition) (s : Nat) :
    (q.processSide s).ko =
      if (q.check_for_capture s).length = 1
      then (q.check_for_capture s).headD 0 else q.ko := by
  unfold GoPosition.processSide
  simp only []
  split <;> simp_all

theorem processSide_position (q : GoPosition) (s : Nat) :
    (q.processSide s).position =
      (q.check_for_capture s).foldl (fun l i => l.set i Player.none) q.position := by
  unfold GoPosition.processSide
  simp only []
  split <;> rfl

theorem foldl_processSide_board_size (sides : List Nat) :
    ∀ q : GoPosition, (sides.foldl GoPosition.processSide q).board_size = q.board_size := by
  induction sides with
  | nil => intro q; rfl
  | cons s rest ih => intro q; rw [List.foldl_cons, ih, processSide_board_size]

theorem processSide_koinv (q : GoPosition) (s : Nat) (h : KoInv q) :
    KoInv (q.processSide s) := by
  intro hlt
  rw [processSide_board_size, processSide_ko] at hlt
  unfold GoPosition.cell
  rw [processSide_position, processSide_ko]
  by_cases hlen : (q.check_for_capture s).length = 1
  · rw [if_pos hlen]
    obtain ⟨a, ha⟩ := List.length_eq_one.mp hlen
    rw [ha]
    simp only [List.headD_cons]
    exact removeAll_getD_mem [a] q.position a (List.mem_singleton_self a)
  · rw [if_neg hlen] at hlt ⊢
    exact removeAll_getD_preserve _ _ _ (h hlt)

theorem process_move_none (p : GoPosition) (x y : Nat) :
    p.process_move x y Player.none =
      { p with position := p.position.set (p.coord_to_index x y) Player.none } := rfl

theorem process_move_eq (p : GoPosition) (x y : Nat) (player : Player)
    (h : player ≠ Player.none) :
    p.process_move x y player =
      (let p1 : GoPosition :=
        { board_size := p.board_size
          position := p.position.set (p.coord_to_index x y) player
          ko := p.board_size * p.board_size + 1 }
       let sides := (p1.get_surrounding_valid_indicies (p.coord_to_index x y)).filter
         (fun i => decide (p1.cell i = opponent player))
       sides.foldl GoPosition.processSide p1) := by
  cases player with
  | none => exact absurd rfl h
  | black => rfl
  | white => rfl

theorem foldl_processSide_koinv (sides : List Nat) :
    ∀ q : GoPosition, KoInv q → KoInv (sides.foldl GoPosition.processSide q) := by
  induction sides with
  | nil => intro q h; exact h
  | cons s rest ih =>
    intro q h
    exact ih _ (processSide_koinv q s h)

theorem process_move_koinv (p : GoPosition) (x y : Nat) (player : Player)
    (h : KoInv p) : KoInv (p.process_move x y player) := by
  by_cases hpn : player = Player.none
  · subst hpn
    rw [process_move_none]
    intro hlt
    exact set_none_getD_preserve _ _ _ (h hlt)
  · rw [process_move_eq p x y player hpn]
    simp only []
    apply foldl_processSide_koinv
    intro hlt
    simp only [] at hlt
    omega

theorem process_move_board_size (p : GoPosition) (x y : Nat) (player : Player) :
    (p.process_move x y player).board_size = p.board_size := by
  by_cases hpn : player = Player.none
  · subst hpn; rfl
  · rw [process_move_eq p x y player hpn]
    simp only []
    rw [foldl_processSide_board_size]

theorem stepOp_koinv (g : GoGame) (op : Op) (h : KoInv g.position) :
    KoInv (stepOp g op).position := by
  cases op with
  | pass => simp only [stepOp]; rw [pass_position]; exact h
  | play x y =>
    simp only [stepOp]
    by_cases hpm : (g.play_move x y).2 = Option.none
    · rw [play_move_ok g x y hpm, incr_turn_position]
      exact process_move_koinv _ x y _ h
    · rw [play_move_fail g x y hpm]
      exact h

theorem foldl_stepOp_koinv (ops : List Op) :
    ∀ g : GoGame, KoInv g.position → KoInv ((ops.foldl stepOp g).position) := by
  induction ops with
  | nil => intro g h; exact h
  | cons op rest ih =>
    intro g h
    exact ih _ (stepOp_koinv g op h)

theorem runOps_koinv (n : Nat) (ops : List Op) : KoInv (runOps n ops).position := by
  apply foldl_stepOp_koinv
  intro hlt
  simp only [GoGame.new, GoPosition.new] at hlt
  omega

theorem stepOp_board_size (g : GoGame) (op : Op) :
    (stepOp g op).position.board_size = g.position.board_size := by
  cases op with
  | pass => simp only [stepOp]; rw [pass_position]
  | play x y =>
    simp only [stepOp]
    by_cases hpm : (g.play_move x y).2 = Option.none
    · rw [play_move_ok g x y hpm, incr_turn_position]
      exact process_move_board_size _ x y _
    · rw [play_move_fail g x y hpm]

theorem runOps_board_size (n : Nat) (ops : List Op) :
    (runOps n ops).position.board_size = n := by
  unfold runOps
  have haux : ∀ l : List Op, ∀ g : GoGame,
      (l.foldl stepOp g).position.board_size = g.position.board_size := by
    intro l
    induction l with
    | nil => intro g; rfl
    | cons op rest ih =>
      intro g
      rw [List.foldl_cons, ih, stepOp_board_size]
  rw [haux]
  rfl

/-!
## C5 — validity of the ko marker in reachable states

The claim ties a present ko marker to "the immediately preceding ply".
`pass` does not touch `ko`, so the marker (pointing at a still-empty
cell) survives passes; after a pass the immediately preceding ply removed
nothing.
-/

/-- Counterexample to C5 as stated: after
black (0,0), white (1,0), pass, white (0,1) — which captures the single
black stone and sets ko — and a final `pass`, the ko marker is still
present, yet the board is identical before and after that pass: no stone
at all (in particular not the ko stone) was removed by the immediately
preceding ply. -/
theorem C5_counterexample :
    (runOps 2 [Op.play 0 0, Op.play 1 0, Op.pass, Op.play 0 1, Op.pass]).position.ko
        < 2 * 2 ∧
      (runOps 2 [Op.play 0 0, Op.play 1 0, Op.pass, Op.play 0 1]).position.position =
        (runOps 2 [Op.play 0 0, Op.play 1 0, Op.pass, Op.play 0 1, Op.pass]).position.position := by
  decide

/-- C5 amended: in every reachable game state, whenever the ko marker is
present it designates a cell that is currently Empty; and `pass` leaves
the entire `Position` (board and ko marker) unchanged, so the single-stone
capture that set the marker may lie on the most recent play ply rather
than the immediately preceding ply. -/
theorem C5_amended (n : Nat) (ops : List Op) :
    ((runOps n ops).position.ko < n * n →
      (runOps n ops).position.cell (runOps n ops).position.ko = Player.none)
  ∧ (runOps n (ops ++ [Op.pass])).position = (runOps n ops).position := by
  constructor
  · intro hlt
    have hko := runOps_koinv n ops
    have hb := runOps_board_size n ops
    exact hko (by rw [hb]; exact hlt)
  · show (List.foldl stepOp (GoGame.new n) (ops ++ [Op.pass])).position = _
    rw [List.foldl_append, List.foldl_cons, List.foldl_nil]
    show (stepOp _ Op.pass).position = _
    simp only [stepOp]
    exact pass_position _

/-- Witness for the amended C5 on the concrete ko trace: the marker is
present and its cell is Empty. -/
theorem C5_amended_witness :
    (runOps 2 [Op.play 0 0, Op.play 1 0, Op.pass, Op.play 0 1]).position.ko < 2 * 2 ∧
      (runOps 2 [Op.play 0 0, Op.play 1 0, Op.pass, Op.play 0 1]).position.cell
        (runOps 2 [Op.play 0 0, Op.play 1 0, Op.pass, Op.play 0 1]).position.ko =
        Player.none :=
  ⟨by decide, (C5_amended 2 [Op.play 0 0, Op.play 1 0, Op.pass, Op.play 0 1]).1 (by decide)⟩

/-! ## Range of the indices returned by `check_for_capture` -/

theorem aux_mem_lt (p : GoPosition) (C O : Player) (hN : p.board_size ≤ 2 ^ 32) :
    ∀ fuel : Nat, ∀ q V R r : List Nat,
      (∀ i ∈ q, i < p.board_size * p.board_size) →
      (∀ t ∈ R, t < p.board_size * p.board_size) →
      p.checkForCaptureAux C O fuel q V R = some r →
      ∀ t ∈ r, t < p.board_size * p.board_size := by
  intro fuel
  induction fuel with
  | zero =>
    intro q V R r _ _ heq
    exact absurd heq (by simp [GoPosition.checkForCaptureAux])
  | succ fuel ih =>
    intro q V R r hq hR heq
    cases q with
    | nil =>
      simp only [GoPosition.checkForCaptureAux, Option.some.injEq] at heq
      subst heq
      exact hR
    | cons i rest =>
      simp only [GoPosition.checkForCaptureAux] at heq
      split at heq
      · -- same color: recurse on extended queue and R ++ [i]
        refine ih _ _ _ _ ?_ ?_ heq
        · intro j hj
          rcases List.mem_append.mp hj with hj1 | hj2
          · have hj3 : j ∈ (p.get_surrounding_valid_indicies i).filter
                (fun s => decide (s ∉ V)) := List.mem_reverse.mp hj1
            have hj4 := List.mem_of_mem_filter hj3
            have hi : i < p.board_size * p.board_size := hq i (List.mem_cons_self i rest)
            exact ((mem_surrounding_iff p hN hi j).mp hj4).1
          · exact hq j (List.mem_cons_of_mem i hj2)
        · intro t ht
          rcases List.mem_append.mp ht with ht1 | ht2
          · exact hR t ht1
          · rw [List.mem_singleton.mp ht2]
            exact hq i (List.mem_cons_self i rest)
      · split at heq
        · -- opposing color: recurse on the tail
          refine ih _ _ _ _ ?_ hR heq
          intro j hj
          exact hq j (List.mem_cons_of_mem i hj)
        · -- empty cell: returns []
          simp only [Option.some.injEq] at heq
          subst heq
          intro t ht
          exact absurd ht (List.not_mem_nil t)

theorem check_mem_lt (p : GoPosition) (hN : p.board_size ≤ 2 ^ 32) (s : Nat)
    (hs : s < p.board_size * p.board_size) :
    ∀ t ∈ p.check_for_capture s, t < p.board_size * p.board_size := by
  unfold GoPosition.check_for_capture
  have hq : ∀ i ∈ [s], i < p.board_size * p.board_size := by
    intro i hi; rw [List.mem_singleton.mp hi]; exact hs
  have hR : ∀ t ∈ ([] : List Nat), t < p.board_size * p.board_size := by
    intro t ht; exact absurd ht (List.not_mem_nil t)
  cases hcell : p.cell s with
  | none => intro t ht; exact absurd ht (List.not_mem_nil t)
  | white =>
    cases haux : p.checkForCaptureAux Player.white Player.black p.capture_fuel [s] [] [] with
    | none => intro t ht; simp [haux] at ht
    | some r =>
      intro t ht
      simp only [Option.getD_some] at ht
      exact aux_mem_lt p Player.white Player.black hN _ [s] [] [] r hq hR haux t ht
  | black =>
    cases haux : p.checkForCaptureAux Player.black Player.white p.capture_fuel [s] [] [] with
    | none => intro t ht; simp [haux] at ht
    | some r =>
      intro t ht
      simp only [Option.getD_some] at ht
      exact aux_mem_lt p Player.black Player.white hN _ [s] [] [] r hq hR haux t ht

/-! ## The capture trace of `process_move` and the ko marker -/

theorem captureTrace_nil (q : GoPosition) : captureTrace q [] = [] := rfl

theorem foldl_processSide_ko (sides : List Nat) :
    ∀ q : GoPosition,
      (sides.foldl GoPosition.processSide q).ko =
        lastSingleton (captureTrace q sides) q.ko := by
  induction sides with
  | nil => intro q; rfl
  | cons s rest ih =>
    intro q
    rw [List.foldl_cons, ih]
    show lastSingleton (captureTrace (q.processSide s) rest) (q.processSide s).ko =
      lastSingleton (captureTrace q (s :: rest)) q.ko
    rw [show captureTrace q (s :: rest) =
      q.check_for_capture s :: captureTrace (q.processSide s) rest from rfl]
    show _ = lastSingleton (captureTrace (q.processSide s) rest)
      (if (q.check_for_capture s).length = 1 then (q.check_for_capture s).headD 0 else q.ko)
    rw [processSide_ko]

theorem captureTrace_mem_lt (N0 : Nat) (hN : N0 ≤ 2 ^ 32) (sides : List Nat) :
    ∀ q : GoPosition, q.board_size = N0 → (∀ s2 ∈ sides, s2 < N0 * N0) →
      ∀ tr ∈ captureTrace q sides, ∀ t ∈ tr, t < N0 * N0 := by
  induction sides with
  | nil =>
    intro q _ _ tr htr
    exact absurd htr (List.not_mem_nil tr)
  | cons s rest ih =>
    intro q hqb hs tr htr
    rcases List.mem_cons.mp htr with rfl | htr2
    · intro t ht
      rw [← hqb] at hs ⊢
      exact check_mem_lt q (hqb ▸ hN) s (hs s (List.mem_cons_self s rest)) t ht
    · refine ih (q.processSide s) ?_ ?_ tr htr2
      · rw [processSide_board_size, hqb]
      · intro s2 hs2; exact hs s2 (List.mem_cons_of_mem s hs2)

theorem lastSingleton_lt_of_lt (M : Nat) (caps : List (List Nat)) :
    (∀ tr ∈ caps, tr.length = 1 → tr.headD 0 < M) →
    ∀ k, k < M → lastSingleton caps k < M := by
  induction caps with
  | nil => intro _ k hk; exact hk
  | cons tr rest ih =>
    intro hb k hk
    show lastSingleton rest (if tr.length = 1 then tr.headD 0 else k) < M
    refine ih (fun tr2 h2 => hb tr2 (List.mem_cons_of_mem tr h2)) _ ?_
    by_cases hl : tr.length = 1
    · rw [if_pos hl]; exact hb tr (List.mem_cons_self tr rest) hl
    · rw [if_neg hl]; exact hk

theorem lastSingleton_lt_iff (M : Nat) (caps : List (List Nat)) :
    (∀ tr ∈ caps, tr.length = 1 → tr.headD 0 < M) →
    ∀ k, ¬ (k < M) →
      (lastSingleton caps k < M ↔ ∃ tr ∈ caps, tr.length = 1) := by
  induction caps with
  | nil =>
    intro _ k hk
    show k < M ↔ _
    constructor
    · intro h; exact absurd h hk
    · rintro ⟨tr, htr, _⟩; exact absurd htr (List.not_mem_nil tr)
  | cons tr rest ih =>
    intro hb k hk
    show lastSingleton rest (if tr.length = 1 then tr.headD 0 else k) < M ↔ _
    by_cases hl : tr.length = 1
    · rw [if_pos hl]
      have hh : tr.headD 0 < M := hb tr (List.mem_cons_self tr rest) hl
      constructor
      · intro _
        exact ⟨tr, List.mem_cons_self tr rest, hl⟩
      · intro _
        exact lastSingleton_lt_of_lt M rest
          (fun tr2 h2 => hb tr2 (List.mem_cons_of_mem tr h2)) _ hh
    · rw [if_neg hl,
        ih (fun tr2 h2 => hb tr2 (List.mem_cons_of_mem tr h2)) k hk]
      constructor
      · rintro ⟨tr2, h2, h3⟩
        exact ⟨tr2, List.mem_cons_of_mem tr h2, h3⟩
      · rintro ⟨tr2, h2, h3⟩
        rcases List.mem_cons.mp h2 with rfl | h4
        · exact absurd h3 hl
        · exact ⟨tr2, h4, h3⟩

/-!
## C6 — ko behavior of `process_move`

For a non-Empty player the code resets ko and then lets each single-stone
capture overwrite it (last one evaluated wins).  For an Empty player the
code returns *before* the ko reset, so — contrary to the claim — the old
marker survives.
-/

/-- Counterexample to C6 as stated: calling `process_move` with
`Player.none` on a position whose ko marker is present leaves the marker
set (the claim requires every call to first reset it to "none"). -/
theorem C6_counterexample :
    ¬ ((GoPosition.process_move
        { board_size := 2
          position := [Player.none, Player.white, Player.white, Player.none]
          ko := 0 } 1 1 Player.none).ko = 2 * 2 + 1) ∧
      (GoPosition.process_move
        { board_size := 2
          position := [Player.none, Player.white, Player.white, Player.none]
          ko := 0 } 1 1 Player.none).ko = 0 := by
  decide

/-- C6 amended: for a non-Empty player, `process_move` resets the ko
marker and then processes the opposing neighbor groups in order, each
single-stone capture overwriting ko with that stone's index (the last one
evaluated wins), so afterwards ko is present iff some captured group in
the trace consisted of exactly one stone; for an Empty player only the
placement is performed and the ko marker is left *unchanged*, not reset. -/
theorem C6_amended_process_move_ko (p : GoPosition) (x y : Nat) (player : Player)
    (hwf : WF p) (hx : x < p.board_size) (hy : y < p.board_size) :
    (player = Player.none →
      p.process_move x y player =
          { p with position := p.position.set (p.coord_to_index x y) player } ∧
        (p.process_move x y player).ko = p.ko)
  ∧ (player ≠ Player.none →
      (let p1 : GoPosition :=
        { board_size := p.board_size
          position := p.position.set (p.coord_to_index x y) player
          ko := p.board_size * p.board_size + 1 }
       let sides := (p1.get_surrounding_valid_indicies (p.coord_to_index x y)).filter
         (fun i => decide (p1.cell i = opponent player))
       (p.process_move x y player).ko =
           lastSingleton (captureTrace p1 sides) (p.board_size * p.board_size + 1)
         ∧ ((p.process_move x y player).ko < p.board_size * p.board_size ↔
            ∃ tr ∈ captureTrace p1 sides, tr.length = 1))) := by
  constructor
  · rintro rfl
    rw [process_move_none]
    exact ⟨rfl, rfl⟩
  · intro hpl
    simp only []
    rw [process_move_eq p x y player hpl]
    simp only []
    rw [foldl_processSide_ko]
    have hidx : p.coord_to_index x y < p.board_size * p.board_size :=
      index_lt_of_coord_lt hx hy
    refine ⟨rfl, ?_⟩
    refine lastSingleton_lt_iff _ _ ?_ _
      (show ¬ (p.board_size * p.board_size + 1 < p.board_size * p.board_size) by omega)
    intro tr htr hlen
    obtain ⟨a, ha⟩ := List.length_eq_one.mp hlen
    rw [ha]
    show a < _
    refine captureTrace_mem_lt p.board_size hwf.2 _ _ ?_ ?_ tr htr a
      (ha ▸ List.mem_singleton_self a)
    · rfl
    intro s2 hs2
    have hmem := List.mem_of_mem_filter hs2
    exact ((mem_surrounding_iff _ hwf.2 hidx s2).mp hmem).1

/-- Witness for the amended C6: White plays at (0, 1) on a 2x2 board
holding a lone Black stone at (0, 0) with White at (1, 0) — the capture
is a single stone, so ko becomes present afterwards. -/
theorem C6_amended_process_move_ko_witness :
    WF ({ board_size := 2,
          position := [Player.black, Player.white, Player.none, Player.none],
          ko := 5 } : GoPosition) ∧
    (let p : GoPosition :=
      { board_size := 2,
        position := [Player.black, Player.white, Player.none, Player.none],
        ko := 5 }
     let p1 : GoPosition :=
      { board_size := p.board_size,
        position := p.position.set (p.coord_to_index 0 1) Player.white,
        ko := p.board_size * p.board_size + 1 }
     let sides := (p1.get_surrounding_valid_indicies (p.coord_to_index 0 1)).filter
       (fun i => decide (p1.cell i = opponent Player.white))
     (p.process_move 0 1 Player.white).ko =
         lastSingleton (captureTrace p1 sides) (p.board_size * p.board_size + 1)
       ∧ ((p.process_move 0 1 Player.white).ko < p.board_size * p.board_size ↔
          ∃ tr ∈ captureTrace p1 sides, tr.length = 1)) := by
  refine ⟨⟨by decide, by decide⟩, ?_⟩
  exact (C6_amended_process_move_ko
    { board_size := 2,
      position := [Player.black, Player.white, Player.none, Player.none],
      ko := 5 } 0 1 Player.white ⟨by decide, by decide⟩ (by decide) (by decide)).2
    (by decide)


/-! ## Measure lemmas for the traversal -/

theorem mem_filter_not_visited {p : GoPosition} {i : Nat} {V : List Nat} {j : Nat} :
    j ∈ (p.get_surrounding_valid_indicies i).filter (fun t => decide (t ∉ V)) ↔
      j ∈ p.get_surrounding_valid_indicies i ∧ j ∉ V := by
  rw [List.mem_filter, decide_eq_true_iff]

theorem unvisited_card_insert_mem (N : Nat) (V : List Nat) (i : Nat) (hi : i ∈ V) :
    ((Finset.range (N * N)).filter (fun c => c ∉ i :: V)).card =
      ((Finset.range (N * N)).filter (fun c => c ∉ V)).card := by
  congr 1
  apply Finset.filter_congr
  intro c _
  simp only [List.mem_cons, not_or, eq_iff_iff]
  constructor
  · intro h; exact h.2
  · intro h; exact ⟨fun hc => h (hc ▸ hi), h⟩

theorem unvisited_card_insert_not_mem (N : Nat) (V : List Nat) (i : Nat)
    (hi : i ∉ V) (hiN : i < N * N) :
    ((Finset.range (N * N)).filter (fun c => c ∉ i :: V)).card + 1 =
      ((Finset.range (N * N)).filter (fun c => c ∉ V)).card := by
  have hmem : i ∈ (Finset.range (N * N)).filter (fun c => c ∉ V) := by
    rw [Finset.mem_filter, Finset.mem_range]
    exact ⟨hiN, hi⟩
  have herase : (Finset.range (N * N)).filter (fun c => c ∉ i :: V) =
      ((Finset.range (N * N)).filter (fun c => c ∉ V)).erase i := by
    ext c
    simp only [Finset.mem_filter, Finset.mem_range, Finset.mem_erase,
      List.mem_cons, not_or]
    constructor
    · rintro ⟨h1, h2, h3⟩; exact ⟨h2, h1, h3⟩
    · rintro ⟨h1, h2, h3⟩; exact ⟨h2, h1, h3⟩
  rw [herase, Finset.card_erase_of_mem hmem]
  have hpos : 0 < ((Finset.range (N * N)).filter (fun c => c ∉ V)).card :=
    Finset.card_pos.mpr ⟨i, hmem⟩
  omega

/-! ## The stack discipline: a visited same-color cell pushes nothing -/

theorem stack_head_no_unvisited {p : GoPosition} {s : Nat} {C : Player}
    {i : Nat} {q V R : List Nat} (inv : AuxInv p s C (i :: q) V R)
    (hiV : i ∈ V) (hic : p.cell i = C) :
    ∀ x ∈ p.get_surrounding_valid_indicies i, x ∈ V := by
  intro x hx
  by_contra hxV
  obtain ⟨A, B, hAB, hiA⟩ := inv.hstack i hiV hic x hx hxV
  cases A with
  | nil =>
    simp only [List.nil_append] at hAB
    injection hAB with h1 _
    exact hxV (h1 ▸ hiV)
  | cons a A2 =>
    simp only [List.cons_append] at hAB
    injection hAB with h1 _
    exact hiA (List.mem_cons.mpr (Or.inl h1))

/-! ## Invariant preservation, one loop iteration -/

theorem auxinv_step_thisC {p : GoPosition} {s : Nat} {C : Player}
    (hWF : WF p) (hs : s < p.board_size * p.board_size) (hC : p.cell s = C)
    {i : Nat} {q V R : List Nat} (inv : AuxInv p s C (i :: q) V R)
    (hic : p.cell i = C) :
    AuxInv p s C
      (((p.get_surrounding_valid_indicies i).filter
          (fun t => decide (t ∉ V))).reverse ++ q)
      (i :: V) (R ++ [i]) := by
  have hiq := inv.hq i (List.mem_cons_self i q)
  have hiN : i < p.board_size * p.board_size := hiq.1
  have hgmi : groupMem p s i := by
    rcases hiq.2 with rfl | ⟨c, hcR, hmem⟩
    · exact Relation.ReflTransGen.refl
    · have hcN := groupMem_lt hs (inv.hR c hcR).2
      have hbr := (mem_surrounding_iff p hWF.2 hcN i).mp hmem
      exact groupMem_tail (inv.hR c hcR).2 hbr.1 hbr.2 (hic.trans hC.symm)
  have hiR : i ∈ R ++ [i] := List.mem_append_right R (List.mem_singleton_self i)
  refine ⟨?_, ?_, ?_, ?_, ?_, ?_⟩
  · -- hq
    intro j hj
    rcases List.mem_append.mp hj with hj1 | hj2
    · have hj3 := mem_filter_not_visited.mp (List.mem_reverse.mp hj1)
      exact ⟨((mem_surrounding_iff p hWF.2 hiN j).mp hj3.1).1,
        Or.inr ⟨i, hiR, hj3.1⟩⟩
    · obtain ⟨hjN, hj4⟩ := inv.hq j (List.mem_cons_of_mem i hj2)
      refine ⟨hjN, ?_⟩
      rcases hj4 with rfl | ⟨c, hcR, hmem⟩
      · exact Or.inl rfl
      · exact Or.inr ⟨c, List.mem_append_left _ hcR, hmem⟩
  · -- hR
    intro r hr
    rcases List.mem_append.mp hr with hr1 | hr2
    · exact inv.hR r hr1
    · rw [List.mem_singleton.mp hr2]
      exact ⟨hic, hgmi⟩
  · -- hV
    intro v hv
    rcases List.mem_cons.mp hv with rfl | hv2
    · exact Or.inl ⟨hic, hiR⟩
    · rcases inv.hV v hv2 with ⟨h1, h2⟩ | h3
      · exact Or.inl ⟨h1, List.mem_append_left _ h2⟩
      · exact Or.inr h3
  · -- hclosed
    intro r hr n hn
    rcases List.mem_append.mp hr with hr1 | hr2
    · rcases inv.hclosed r hr1 n hn with h1 | h2
      · exact Or.inl (List.mem_cons_of_mem i h1)
      · rcases List.mem_cons.mp h2 with rfl | h3
        · exact Or.inl (List.mem_cons_self n V)
        · exact Or.inr (List.mem_append_right _ h3)
    · have hri : r = i := List.mem_singleton.mp hr2
      subst hri
      by_cases hnV : n ∈ V
      · exact Or.inl (List.mem_cons_of_mem r hnV)
      · refine Or.inr (List.mem_append_left _ ?_)
        rw [List.mem_reverse]
        exact mem_filter_not_visited.mpr ⟨hn, hnV⟩
  · -- hseed
    rcases inv.hseed with h1 | h2
    · exact Or.inl (List.mem_append_left _ h1)
    · rcases List.mem_cons.mp h2 with rfl | h3
      · exact Or.inl hiR
      · exact Or.inr (List.mem_append_right _ h3)
  · -- hstack
    intro d hd hdc x hx hxV
    have hxne : x ≠ i := fun h => hxV (h ▸ List.mem_cons_self i V)
    have hxVold : x ∉ V := fun h => hxV (List.mem_cons_of_mem i h)
    rcases List.mem_cons.mp hd with rfl | hdV
    · -- d = i: the fresh pushes contain x, and no copy of d sits among them
      have hxf : x ∈ ((p.get_surrounding_valid_indicies d).filter
          (fun t => decide (t ∉ V))).reverse := by
        rw [List.mem_reverse]
        exact mem_filter_not_visited.mpr ⟨hx, hxVold⟩
      obtain ⟨A, B, hAB⟩ := List.append_of_mem hxf
      refine ⟨A, B ++ q, ?_, ?_⟩
      · rw [hAB, List.append_assoc, List.cons_append]
      · intro hdA
        have hdf : d ∈ ((p.get_surrounding_valid_indicies d).filter
            (fun t => decide (t ∉ V))).reverse := by
          rw [hAB]; exact List.mem_append_left _ hdA
        rw [List.mem_reverse] at hdf
        exact not_mem_surrounding_self p hWF.2 hiN (mem_filter_not_visited.mp hdf).1
    · -- d was already visited: strip the popped head from the old split
      obtain ⟨A, B, hAB, hdA⟩ := inv.hstack d hdV hdc x hx hxVold
      cases A with
      | nil =>
        simp only [List.nil_append] at hAB
        injection hAB with h1 _
        exact absurd h1.symm hxne
      | cons a A2 =>
        simp only [List.cons_append] at hAB
        injection hAB with h1 h2
        refine ⟨((p.get_surrounding_valid_indicies i).filter
            (fun t => decide (t ∉ V))).reverse ++ A2, B, ?_, ?_⟩
        · rw [h2, ← List.append_assoc]
        · intro hmem
          rcases List.mem_append.mp hmem with hm1 | hm2
          · rw [List.mem_reverse] at hm1
            exact (mem_filter_not_visited.mp hm1).2 hdV
          · exact hdA (List.mem_cons_of_mem a hm2)

theorem auxinv_step_opp {p : GoPosition} {s : Nat} {C : Player}
    (hC : p.cell s = C) (hOC : opponent C ≠ C)
    {i : Nat} {q V R : List Nat} (inv : AuxInv p s C (i :: q) V R)
    (hio : p.cell i = opponent C) :
    AuxInv p s C q (i :: V) R := by
  refine ⟨?_, inv.hR, ?_, ?_, ?_, ?_⟩
  · intro j hj
    exact inv.hq j (List.mem_cons_of_mem i hj)
  · intro v hv
    rcases List.mem_cons.mp hv with rfl | hv2
    · exact Or.inr hio
    · exact inv.hV v hv2
  · intro r hr n hn
    rcases inv.hclosed r hr n hn with h1 | h2
    · exact Or.inl (List.mem_cons_of_mem i h1)
    · rcases List.mem_cons.mp h2 with rfl | h3
      · exact Or.inl (List.mem_cons_self n V)
      · exact Or.inr h3
  · rcases inv.hseed with h1 | h2
    · exact Or.inl h1
    · rcases List.mem_cons.mp h2 with rfl | h3
      · exact absurd (hio.symm.trans hC) hOC
      · exact Or.inr h3
  · intro d hd hdc x hx hxV
    have hxne : x ≠ i := fun h => hxV (h ▸ List.mem_cons_self i V)
    have hxVold : x ∉ V := fun h => hxV (List.mem_cons_of_mem i h)
    rcases List.mem_cons.mp hd with rfl | hdV
    · exact absurd (hdc.symm.trans hio).symm hOC
    · obtain ⟨A, B, hAB, hdA⟩ := inv.hstack d hdV hdc x hx hxVold
      cases A with
      | nil =>
        simp only [List.nil_append] at hAB
        injection hAB with h1 _
        exact absurd h1.symm hxne
      | cons a A2 =>
        simp only [List.cons_append] at hAB
        injection hAB with h1 h2
        exact ⟨A2, B, h2, fun hm => hdA (List.mem_cons_of_mem a hm)⟩

/-!
## The master lemma for `check_for_capture`

With sufficient fuel, the traversal returns: the empty list exactly when
the seed's group has a liberty (witnessed by the empty cell that was
dequeued), and otherwise a nonempty list whose members are exactly the
group — which then has no liberty.
-/

theorem aux_master (p : GoPosition) (s : Nat) (C : Player) (hWF : WF p)
    (hs : s < p.board_size * p.board_size) (hC : p.cell s = C)
    (hCbw : C = Player.black ∨ C = Player.white) :
    ∀ fuel q V R, AuxInv p s C q V R →
      auxMeasure p.board_size q V < fuel →
      ∃ r, p.checkForCaptureAux C (opponent C) fuel q V R = some r ∧
        ((r = [] ∧ hasLiberty p s) ∨
         (r ≠ [] ∧ (∀ t, t ∈ r ↔ groupMem p s t) ∧ ¬ hasLiberty p s)) := by
  have hCne : C ≠ Player.none := by rcases hCbw with rfl | rfl <;> decide
  have hOC : opponent C ≠ C := by rcases hCbw with rfl | rfl <;> decide
  have hOne : opponent C ≠ Player.none := by rcases hCbw with rfl | rfl <;> decide
  intro fuel
  induction fuel with
  | zero =>
    intro q V R _ hm
    exact absurd hm (by omega)
  | succ fuel ih =>
    intro q V R inv hm
    cases q with
    | nil =>
      have hsR : s ∈ R := by
        rcases inv.hseed with h | h
        · exact h
        · exact absurd h (List.not_mem_nil s)
      have hmemR : ∀ t, groupMem p s t → t ∈ R := by
        intro t hgm
        replace hgm : Relation.ReflTransGen (groupStep p (p.cell s)) s t := hgm
        induction hgm with
        | refl => exact hsR
        | tail hmid hstep ihm =>
          rename_i b c
          obtain ⟨hcN, hadj, hcell⟩ := hstep
          have hbN := groupMem_lt hs hmid
          have hcsur := (mem_surrounding_iff p hWF.2 hbN c).mpr ⟨hcN, hadj⟩
          rcases inv.hclosed b ihm c hcsur with hcV | hcq
          · rcases inv.hV c hcV with ⟨_, hcR⟩ | hcO
            · exact hcR
            · have hcC : p.cell c = C := hcell.trans hC
              exact absurd (hcO.symm.trans hcC) hOC
          · exact absurd hcq (List.not_mem_nil c)
      have hnolib : ¬ hasLiberty p s := by
        rintro ⟨t, n, hgm, hnN, hadj, hnone⟩
        have htR := hmemR t hgm
        have htN := groupMem_lt hs hgm
        have hnsur := (mem_surrounding_iff p hWF.2 htN n).mpr ⟨hnN, hadj⟩
        rcases inv.hclosed t htR n hnsur with hnV | hnq
        · rcases inv.hV n hnV with ⟨h1, _⟩ | h2
          · exact hCne (h1.symm.trans hnone)
          · exact hOne (h2.symm.trans hnone)
        · exact absurd hnq (List.not_mem_nil n)
      refine ⟨R, rfl, Or.inr ⟨List.ne_nil_of_mem hsR, ?_, hnolib⟩⟩
      intro t
      exact ⟨fun ht => (inv.hR t ht).2, hmemR t⟩
    | cons i q2 =>
      by_cases hic : p.cell i = C
      · have hstep := auxinv_step_thisC hWF hs hC inv hic
        by_cases hiV : i ∈ V
        · -- a visited same-color cell pushes nothing
          have hflt : (p.get_surrounding_valid_indicies i).filter
              (fun t => decide (t ∉ V)) = [] := by
            rw [List.filter_eq_nil_iff]
            intro a ha
            rw [decide_eq_true_iff]
            exact not_not_intro (stack_head_no_unvisited inv hiV hic a ha)
          have hstep2 : AuxInv p s C q2 (i :: V) (R ++ [i]) := by
            rw [hflt] at hstep
            simpa using hstep
          have hm2 : auxMeasure p.board_size q2 (i :: V) < fuel := by
            unfold auxMeasure at hm ⊢
            rw [unvisited_card_insert_mem _ _ _ hiV]
            simp only [List.length_cons] at hm
            omega
          obtain ⟨r, heq, hpost⟩ := ih q2 (i :: V) (R ++ [i]) hstep2 hm2
          refine ⟨r, ?_, hpost⟩
          simp only [GoPosition.checkForCaptureAux]
          rw [if_pos hic, hflt]
          simpa using heq
        · have hiN := (inv.hq i (List.mem_cons_self i q2)).1
          have hm2 : auxMeasure p.board_size
              (((p.get_surrounding_valid_indicies i).filter
                (fun t => decide (t ∉ V))).reverse ++ q2) (i :: V) < fuel := by
            unfold auxMeasure at hm ⊢
            have hcard := unvisited_card_insert_not_mem p.board_size V i hiV hiN
            have hlen1 := List.length_filter_le (fun t => decide (t ∉ V))
              (p.get_surrounding_valid_indicies i)
            have hlen2 := surrounding_length_le p i
            rw [List.length_append, List.length_reverse]
            simp only [List.length_cons] at hm
            omega
          obtain ⟨r, heq, hpost⟩ := ih _ _ _ hstep hm2
          refine ⟨r, ?_, hpost⟩
          simp only [GoPosition.checkForCaptureAux]
          rw [if_pos hic]
          exact heq
      · by_cases hio : p.cell i = opponent C
        · have hstep := auxinv_step_opp hC hOC inv hio
          have hm2 : auxMeasure p.board_size q2 (i :: V) < fuel := by
            unfold auxMeasure at hm ⊢
            simp only [List.length_cons] at hm
            by_cases hiV : i ∈ V
            · rw [unvisited_card_insert_mem _ _ _ hiV]
              omega
            · have hiN := (inv.hq i (List.mem_cons_self i q2)).1
              have := unvisited_card_insert_not_mem p.board_size V i hiV hiN
              omega
          obtain ⟨r, heq, hpost⟩ := ih _ _ _ hstep hm2
          refine ⟨r, ?_, hpost⟩
          simp only [GoPosition.checkForCaptureAux]
          rw [if_neg hic, if_pos hio]
          exact heq
        · -- the popped cell is empty: it witnesses a liberty
          have hinone : p.cell i = Player.none := by
            cases hcc : p.cell i with
            | none => rfl
            | black =>
              rcases hCbw with rfl | rfl
              · exact absurd hcc hic
              · exact absurd hcc hio
            | white =>
              rcases hCbw with rfl | rfl
              · exact absurd hcc hio
              · exact absurd hcc hic
          refine ⟨[], ?_, Or.inl ⟨rfl, ?_⟩⟩
          · simp only [GoPosition.checkForCaptureAux]
            rw [if_neg hic, if_neg hio]
          · obtain ⟨hiN, hsrc⟩ := inv.hq i (List.mem_cons_self i q2)
            rcases hsrc with rfl | ⟨c, hcR, hmem⟩
            · exact absurd (hC.symm.trans hinone) hCne
            · have hcN := groupMem_lt hs (inv.hR c hcR).2
              have hbr := (mem_surrounding_iff p hWF.2 hcN i).mp hmem
              exact ⟨c, i, (inv.hR c hcR).2, hbr.1, hbr.2, hinone⟩

/-! ## `check_for_capture`: specification -/

theorem check_for_capture_none (p : GoPosition) (s : Nat)
    (h : p.cell s = Player.none) : p.check_for_capture s = [] := by
  unfold GoPosition.check_for_capture
  rw [h]

theorem check_for_capture_eq_aux (p : GoPosition) (s : Nat) (C : Player)
    (hC : p.cell s = C) (hCbw : C = Player.black ∨ C = Player.white) :
    p.check_for_capture s =
      (p.checkForCaptureAux C (opponent C) p.capture_fuel [s] [] []).getD [] := by
  unfold GoPosition.check_for_capture
  rcases hCbw with rfl | rfl <;> (rw [hC]; rfl)

theorem auxinv_init (p : GoPosition) (s : Nat) (C : Player)
    (hs : s < p.board_size * p.board_size) (hC : p.cell s = C) :
    AuxInv p s C [s] [] [] := by
  refine ⟨?_, ?_, ?_, ?_, ?_, ?_⟩
  · intro i hi
    rw [List.mem_singleton.mp hi]
    exact ⟨hs, Or.inl rfl⟩
  · intro r hr; exact absurd hr (List.not_mem_nil r)
  · intro v hv; exact absurd hv (List.not_mem_nil v)
  · intro r hr; exact absurd hr (List.not_mem_nil r)
  · exact Or.inr (List.mem_singleton_self s)
  · intro d hd; exact absurd hd (List.not_mem_nil d)

theorem auxMeasure_init (N : Nat) (s : Nat) :
    auxMeasure N [s] [] = 1 + 5 * (N * N) := by
  unfold auxMeasure
  have hfil : (Finset.range (N * N)).filter (fun c => c ∉ ([] : List Nat)) =
      Finset.range (N * N) := by
    apply Finset.filter_true_of_mem
    intro x _
    exact List.not_mem_nil x
  rw [hfil, Finset.card_range]
  rfl

/-- The two-sided specification of `check_for_capture` on a stone seed:
empty result exactly when the seed's group has a liberty, and otherwise
the result is nonempty and contains exactly the group. -/
theorem check_for_capture_spec (p : GoPosition) (s : Nat) (hWF : WF p)
    (hs : s < p.board_size * p.board_size) (hcell : p.cell s ≠ Player.none) :
    (hasLiberty p s → p.check_for_capture s = []) ∧
    (¬ hasLiberty p s →
      p.check_for_capture s ≠ [] ∧
      ∀ t, t ∈ p.check_for_capture s ↔ groupMem p s t) := by
  have hcase : p.cell s = Player.black ∨ p.cell s = Player.white := by
    cases hcc : p.cell s with
    | none => exact absurd hcc hcell
    | black => exact Or.inl rfl
    | white => exact Or.inr rfl
  obtain ⟨r, heq, hpost⟩ :=
    aux_master p s (p.cell s) hWF hs rfl hcase p.capture_fuel [s] [] []
      (auxinv_init p s (p.cell s) hs rfl)
      (by rw [auxMeasure_init]; unfold GoPosition.capture_fuel; omega)
  have hcheck : p.check_for_capture s = r := by
    rw [check_for_capture_eq_aux p s (p.cell s) rfl hcase, heq]
    rfl
  rw [hcheck]
  rcases hpost with ⟨hre, hlib⟩ | ⟨hne, hiff, hnl⟩
  · exact ⟨fun _ => hre, fun hnl => absurd hlib hnl⟩
  · exact ⟨fun hl => absurd hl hnl, fun _ => ⟨hne, hiff⟩⟩

/-! ## The singleton-group case -/

theorem aux_all_opp (p : GoPosition) (C O : Player) (hOC : O ≠ C) :
    ∀ fuel q V R, (∀ i ∈ q, p.cell i = O) → q.length < fuel →
      p.checkForCaptureAux C O fuel q V R = some R := by
  intro fuel
  induction fuel with
  | zero =>
    intro q V R _ hlen
    exact absurd hlen (by omega)
  | succ fuel ih =>
    intro q V R hq hlen
    cases q with
    | nil => rfl
    | cons i q2 =>
      have hio : p.cell i = O := hq i (List.mem_cons_self i q2)
      simp only [GoPosition.checkForCaptureAux]
      rw [if_neg (fun h : p.cell i = C => hOC (hio ▸ h)), if_pos hio]
      refine ih q2 (i :: V) R ?_ ?_
      · intro j hj; exact hq j (List.mem_cons_of_mem i hj)
      · simp only [List.length_cons] at hlen
        omega

/-- A stone all of whose valid orthogonal neighbors hold the opposing
color is returned as exactly the one-element list `[s]`. -/
theorem check_for_capture_singleton (p : GoPosition) (s : Nat)
    (hs : s < p.board_size * p.board_size) (hcell : p.cell s ≠ Player.none)
    (hsur : ∀ n ∈ p.get_surrounding_valid_indicies s,
      p.cell n = opponent (p.cell s)) :
    p.check_for_capture s = [s] := by
  have hcase : p.cell s = Player.black ∨ p.cell s = Player.white := by
    cases hcc : p.cell s with
    | none => exact absurd hcc hcell
    | black => exact Or.inl rfl
    | white => exact Or.inr rfl
  have hOC : opponent (p.cell s) ≠ p.cell s := by
    rcases hcase with h | h <;> rw [h] <;> decide
  have hNpos : 0 < p.board_size * p.board_size := Nat.pos_of_ne_zero (by omega)
  rw [check_for_capture_eq_aux p s (p.cell s) rfl hcase]
  have hfuel : p.capture_fuel = (5 * (p.board_size * p.board_size) + 1) + 1 := rfl
  rw [hfuel]
  have hstep : p.checkForCaptureAux (p.cell s) (opponent (p.cell s))
      ((5 * (p.board_size * p.board_size) + 1) + 1) [s] [] [] =
      p.checkForCaptureAux (p.cell s) (opponent (p.cell s))
        (5 * (p.board_size * p.board_size) + 1)
        ((p.get_surrounding_valid_indicies s).reverse ++ []) [s] [s] := by
    have hfil : (p.get_surrounding_valid_indicies s).filter
        (fun t => decide (t ∉ ([] : List Nat))) =
        p.get_surrounding_valid_indicies s := by
      apply List.filter_eq_self.mpr
      intro a _
      rw [decide_eq_true_iff]
      exact List.not_mem_nil a
    simp only [GoPosition.checkForCaptureAux, if_true]
    rw [hfil]
    rfl
  rw [hstep, aux_all_opp p (p.cell s) (opponent (p.cell s)) hOC _ _ _ _ ?_ ?_]
  · rfl
  · intro i hi
    rw [List.append_nil] at hi
    exact hsur i (List.mem_reverse.mp hi)
  · rw [List.append_nil, List.length_reverse]
    have := surrounding_length_le p s
    omega

/-- The result's list length is at most 1 exactly when its set of
distinct indices has at most one element: a captured group of two or more
stones contributes at least two distinct indices, and a captured
singleton is returned as the literal one-element list. -/
theorem check_length_le_one_iff (p : GoPosition) (n : Nat) (hWF : WF p)
    (hn : n < p.board_size * p.board_size) :
    ((p.check_for_capture n).length ≤ 1 ↔
      (p.check_for_capture n).toFinset.card ≤ 1) := by
  constructor
  · intro h
    exact le_trans (List.toFinset_card_le _) h
  · intro h
    by_cases hc : p.cell n = Player.none
    · rw [check_for_capture_none p n hc]
      simp
    by_cases hlib : hasLiberty p n
    · rw [(check_for_capture_spec p n hWF hn hc).1 hlib]
      simp
    obtain ⟨hne, hiff⟩ := (check_for_capture_spec p n hWF hn hc).2 hlib
    have hnn : n ∈ p.check_for_capture n :=
      (hiff n).mpr Relation.ReflTransGen.refl
    have hall : ∀ t ∈ p.check_for_capture n, t = n := by
      intro t ht
      exact Finset.card_le_one.mp h t (List.mem_toFinset.mpr ht) n
        (List.mem_toFinset.mpr hnn)
    have hsur : ∀ m ∈ p.get_surrounding_valid_indicies n,
        p.cell m = opponent (p.cell n) := by
      intro m hm
      have hbr := (mem_surrounding_iff p hWF.2 hn m).mp hm
      cases hcn : p.cell n with
      | none => exact absurd hcn hc
      | black =>
        cases hcm : p.cell m with
        | white => rfl
        | none =>
          exact absurd ⟨n, m, Relation.ReflTransGen.refl, hbr.1, hbr.2, hcm⟩ hlib
        | black =>
          have hgm : groupMem p n m :=
            groupMem_tail Relation.ReflTransGen.refl hbr.1 hbr.2
              (hcm.trans hcn.symm)
          have hmn : m = n := hall m ((hiff m).mpr hgm)
          exact absurd (hmn ▸ hm) (not_mem_surrounding_self p hWF.2 hn)
      | white =>
        cases hcm : p.cell m with
        | black => rfl
        | none =>
          exact absurd ⟨n, m, Relation.ReflTransGen.refl, hbr.1, hbr.2, hcm⟩ hlib
        | white =>
          have hgm : groupMem p n m :=
            groupMem_tail Relation.ReflTransGen.refl hbr.1 hbr.2
              (hcm.trans hcn.symm)
          have hmn : m = n := hall m ((hiff m).mpr hgm)
          exact absurd (hmn ▸ hm) (not_mem_surrounding_self p hWF.2 hn)
    rw [check_for_capture_singleton p n hn hc hsur]
    simp

/-!
## C2 — specification of `check_for_capture`
-/

/-- C2: for every position and in-range seed, `check_for_capture` returns
the empty collection when the seed cell is Empty or the seed's maximal
same-color group has a liberty; when that group has zero liberties the
result contains exactly the group's members; and a single stone whose
valid orthogonal neighbors all hold the opposing color yields exactly
that stone's index. -/
theorem C2_find_captured_group (p : GoPosition) (s : Nat)
    (hWF : WF p) (hs : s < p.board_size * p.board_size) :
    (p.cell s = Player.none → p.check_for_capture s = [])
  ∧ (hasLiberty p s → p.check_for_capture s = [])
  ∧ (p.cell s ≠ Player.none → ¬ hasLiberty p s →
      p.check_for_capture s ≠ [] ∧
      ∀ t, t ∈ p.check_for_capture s ↔ groupMem p s t)
  ∧ (p.cell s ≠ Player.none →
      (∀ n ∈ p.get_surrounding_valid_indicies s,
        p.cell n = opponent (p.cell s)) →
      p.check_for_capture s = [s]) := by
  refine ⟨check_for_capture_none p s, ?_, ?_, ?_⟩
  · intro hlib
    by_cases hc : p.cell s = Player.none
    · exact check_for_capture_none p s hc
    · exact (check_for_capture_spec p s hWF hs hc).1 hlib
  · intro hc hnl
    exact (check_for_capture_spec p s hWF hs hc).2 hnl
  · intro hc hsur
    exact check_for_capture_singleton p s hs hc hsur

/-- Witness for C2: a 2×2 board with a lone Black stone at index 0,
surrounded by White at indices 1 and 2. -/
theorem C2_find_captured_group_witness :
    WF ({ board_size := 2,
          position := [Player.black, Player.white, Player.white, Player.none],
          ko := 5 } : GoPosition) ∧
      0 < 2 * 2 ∧
      (let p : GoPosition :=
        { board_size := 2,
          position := [Player.black, Player.white, Player.white, Player.none],
          ko := 5 }
       (p.cell 0 = Player.none → p.check_for_capture 0 = [])
       ∧ (hasLiberty p 0 → p.check_for_capture 0 = [])
       ∧ (p.cell 0 ≠ Player.none → ¬ hasLiberty p 0 →
           p.check_for_capture 0 ≠ [] ∧
           ∀ t, t ∈ p.check_for_capture 0 ↔ groupMem p 0 t)
       ∧ (p.cell 0 ≠ Player.none →
           (∀ n ∈ p.get_surrounding_valid_indicies 0,
             p.cell n = opponent (p.cell 0)) →
           p.check_for_capture 0 = [0])) :=
  ⟨⟨by decide, by decide⟩, by decide,
    C2_find_captured_group
      { board_size := 2,
        position := [Player.black, Player.white, Player.white, Player.none],
        ko := 5 } 0 ⟨by decide, by decide⟩ (by decide)⟩

/-!
## C8 — traversal bookkeeping of `check_for_capture`

A queued cell is only marked visited when it is dequeued, and the queue
filter consults the visited set at *enqueue* time, so a cell enqueued
twice before its first dequeue is processed twice and lands twice in
`to_remove`.  The traversal still terminates within the fuel bound.
-/

/-- Counterexample to C8 as stated: a 2×2 Black block in the corner of a
3×3 board walled in by White.  Index 1 is enqueued by both of its
processed neighbors before it is first dequeued, is dequeued and
processed twice, and appears twice in the returned collection
(the result is `[0, 3, 4, 1, 1]`). -/
theorem C8_counterexample :
    ¬ (GoPosition.check_for_capture
        { board_size := 3,
          position := [Player.black, Player.black, Player.white,
                       Player.black, Player.black, Player.white,
                       Player.white, Player.white, Player.none],
          ko := 10 } 0).Nodup := by
  decide

/-- C8 amended: a board cell can be dequeued and processed more than once
(the visited set is only consulted when enqueuing, and a cell becomes
visited only when first dequeued), so the returned collection can contain
duplicate indices; the traversal nevertheless terminates: on a stone
seed the loop always reaches one of its returns within the fuel bound
`5·N²+2`, and `check_for_capture` returns that loop result. -/
theorem C8_amended_termination (p : GoPosition) (s : Nat) (hWF : WF p)
    (hs : s < p.board_size * p.board_size) (hcell : p.cell s ≠ Player.none) :
    ∃ r, p.checkForCaptureAux (p.cell s) (opponent (p.cell s))
        p.capture_fuel [s] [] [] = some r ∧
      p.check_for_capture s = r := by
  have hcase : p.cell s = Player.black ∨ p.cell s = Player.white := by
    cases hcc : p.cell s with
    | none => exact absurd hcc hcell
    | black => exact Or.inl rfl
    | white => exact Or.inr rfl
  obtain ⟨r, heq, _⟩ :=
    aux_master p s (p.cell s) hWF hs rfl hcase p.capture_fuel [s] [] []
      (auxinv_init p s (p.cell s) hs rfl)
      (by rw [auxMeasure_init]; unfold GoPosition.capture_fuel; omega)
  refine ⟨r, heq, ?_⟩
  rw [check_for_capture_eq_aux p s (p.cell s) rfl hcase, heq]
  rfl

/-- Witness for the amended C8 on the duplicated-result board. -/
theorem C8_amended_termination_witness :
    (let p : GoPosition :=
      { board_size := 3,
        position := [Player.black, Player.black, Player.white,
                     Player.black, Player.black, Player.white,
                     Player.white, Player.white, Player.none],
        ko := 10 }
     WF p ∧ 0 < 3 * 3 ∧
       ∃ r, p.checkForCaptureAux (p.cell 0) (opponent (p.cell 0))
           p.capture_fuel [0] [] [] = some r ∧
         p.check_for_capture 0 = r) :=
  ⟨⟨by decide, by decide⟩, by decide,
    C8_amended_termination
      { board_size := 3,
        position := [Player.black, Player.black, Player.white,
                     Player.black, Player.black, Player.white,
                     Player.white, Player.white, Player.none],
        ko := 10 } 0 ⟨by decide, by decide⟩ (by decide) (by decide)⟩

/-!
## C1 — characterization of `is_valid_move` past the three guards
-/

theorem getD_set_self_of_lt (l : List Player) (i : Nat) (v : Player)
    (h : i < l.length) : (l.set i v).getD i Player.none = v := by
  induction l generalizing i with
  | nil => exact absurd h (Nat.not_lt_zero i)
  | cons a t ih =>
    cases i with
    | zero => rfl
    | succ j =>
      simp only [List.set_cons_succ, List.getD_cons_succ]
      exact ih j (by simpa using h)

/-- C1: for inputs that pass the first three checks (coordinates in
range, target cell Empty, player not Empty) the result of
`is_valid_move` is `false` if and only if, with `player` tentatively
placed at the target index, (a) the tentative same-color group containing
the target has zero liberties, and (b) every valid orthogonal neighbor
`n` of the target either holds the player's own color or fails to yield a
qualifying capture — where the capture of the group at `n` qualifies when
`check_for_capture n` is non-empty in the non-ko case, but only when it
has at least 2 distinct stones when the target index equals the ko
marker.  In every other configuration the move is legal. -/
theorem C1_is_valid_move_characterization (p : GoPosition) (x y : Nat)
    (player : Player) (hWF : WF p) (hx : x < p.board_size)
    (hy : y < p.board_size)
    (hcell : p.cell (p.coord_to_index x y) = Player.none)
    (hpl : player ≠ Player.none) :
    (let index := p.coord_to_index x y
     let p1 : GoPosition := { p with position := p.position.set index player }
     ((p.is_valid_move x y player).2 = false ↔
       (¬ hasLiberty p1 index ∧
        ∀ n, n < p.board_size * p.board_size →
          orthAdjacent p.board_size index n →
          (p1.cell n = player ∨
           ¬ (if index = p.ko
              then 2 ≤ (p1.check_for_capture n).toFinset.card
              else p1.check_for_capture n ≠ []))))) := by
  simp only []
  have hval : p.coord_is_valid x y = true := (coord_is_valid_iff p x y).mpr ⟨hx, hy⟩
  have hidx : p.coord_to_index x y < p.board_size * p.board_size :=
    index_lt_of_coord_lt hx hy
  have hWF1 : WF { p with position := p.position.set (p.coord_to_index x y) player } := by
    constructor
    · simp only [List.length_set]
      exact hWF.1
    · exact hWF.2
  have hp1cell : ({ p with position := p.position.set (p.coord_to_index x y) player} :
      GoPosition).cell (p.coord_to_index x y) = player := by
    unfold GoPosition.cell
    exact getD_set_self_of_lt _ _ _ (by rw [hWF.1]; exact hidx)
  have hp1ne : ({ p with position := p.position.set (p.coord_to_index x y) player} :
      GoPosition).cell (p.coord_to_index x y) ≠ Player.none := by
    rw [hp1cell]; exact hpl
  have hspec := check_for_capture_spec
    { p with position := p.position.set (p.coord_to_index x y) player }
    (p.coord_to_index x y) hWF1 hidx hp1ne
  have hcheckiff : (({ p with position := p.position.set (p.coord_to_index x y) player } : GoPosition).check_for_capture
          (p.coord_to_index x y)).isEmpty = false ↔
      ¬ hasLiberty { p with position := p.position.set (p.coord_to_index x y) player }
        (p.coord_to_index x y) := by
    constructor
    · intro hie hlib
      rw [hspec.1 hlib] at hie
      simp at hie
    · intro hnl
      have hne := (hspec.2 hnl).1
      cases hcc : ({ p with position := p.position.set (p.coord_to_index x y) player} :
          GoPosition).check_for_capture (p.coord_to_index x y) with
      | nil => exact absurd hcc hne
      | cons a l => rfl
  have helem : ∀ a, a < p.board_size * p.board_size →
      (((decide (({ p with position := p.position.set (p.coord_to_index x y) player } : GoPosition).cell a = player)) ||
        (if (decide (p.coord_to_index x y = p.ko)) = false
         then (({ p with position := p.position.set (p.coord_to_index x y) player } : GoPosition).check_for_capture a).isEmpty
         else decide ((({ p with position := p.position.set (p.coord_to_index x y) player } : GoPosition).check_for_capture a).length ≤ 1))) = true ↔
       (({ p with position := p.position.set (p.coord_to_index x y) player } : GoPosition).cell a = player ∨
        ¬ (if p.coord_to_index x y = p.ko
           then 2 ≤ (({ p with position := p.position.set (p.coord_to_index x y) player } : GoPosition).check_for_capture a).toFinset.card
           else ({ p with position := p.position.set (p.coord_to_index x y) player} :
             GoPosition).check_for_capture a ≠ []))) := by
    intro a haN
    rw [Bool.or_eq_true, decide_eq_true_iff]
    refine or_congr Iff.rfl ?_
    by_cases hko : p.coord_to_index x y = p.ko
    · rw [if_pos hko, decide_eq_true hko,
        if_neg (by simp : ¬ ((true : Bool) = false)), decide_eq_true_iff,
        check_length_le_one_iff _ a hWF1 haN]
      omega
    · rw [if_neg hko, decide_eq_false hko, if_pos rfl, List.isEmpty_iff]
      exact not_not.symm
  unfold GoPosition.is_valid_move
  simp only []
  rw [if_neg (not_not_intro hval), if_neg (not_not_intro hcell), if_neg hpl]
  have hsnd : ∀ (c : Prop) (inst : Decidable c) (A B : GoPosition),
      (((if c then (A, false) else (B, true)).2 = false) ↔ c) := by
    intro c inst A B
    split
    · rename_i hcc
      exact iff_of_true rfl hcc
    · rename_i hcc
      exact iff_of_false (by simp) hcc
  rw [hsnd]
  constructor
  · rintro ⟨hsurr, hie⟩
    refine ⟨hcheckiff.mp hie, ?_⟩
    intro n hnN hadj
    have hmem := (mem_surrounding_iff
      { p with position := p.position.set (p.coord_to_index x y) player }
      hWF.2 hidx n).mpr ⟨hnN, hadj⟩
    exact (helem n hnN).mp (List.all_eq_true.mp hsurr n hmem)
  · rintro ⟨hnl, hall⟩
    refine ⟨?_, hcheckiff.mpr hnl⟩
    rw [List.all_eq_true]
    intro a ha
    have hbr := (mem_surrounding_iff
      { p with position := p.position.set (p.coord_to_index x y) player }
      hWF.2 hidx a).mp ha
    exact (helem a hbr.1).mpr (hall a hbr.1 hbr.2)

/-- Witness for C1: the suicide point of the spec scenario — on a 5×5
board White holds (1,0) and (0,1); Black playing (0,0) would be captured
and captures nothing, so the move is reported illegal. -/
theorem C1_is_valid_move_characterization_witness :
    (let p : GoPosition :=
      { board_size := 5,
        position := ((List.replicate 25 Player.none).set 1 Player.white).set 5
          Player.white,
        ko := 26 }
     WF p ∧ 0 < p.board_size ∧ 0 < p.board_size ∧
       p.cell (p.coord_to_index 0 0) = Player.none ∧ Player.black ≠ Player.none ∧
       (let index := p.coord_to_index 0 0
        let p1 : GoPosition := { p with position := p.position.set index Player.black }
        ((p.is_valid_move 0 0 Player.black).2 = false ↔
          (¬ hasLiberty p1 index ∧
           ∀ n, n < p.board_size * p.board_size →
             orthAdjacent p.board_size index n →
             (p1.cell n = Player.black ∨
              ¬ (if index = p.ko
                 then 2 ≤ (p1.check_for_capture n).toFinset.card
                 else p1.check_for_capture n ≠ [])))))) :=
  ⟨⟨by decide, by decide⟩, by decide, by decide, by decide, by decide,
    C1_is_valid_move_characterization
      { board_size := 5,
        position := ((List.replicate 25 Player.none).set 1 Player.white).set 5
          Player.white,
        ko := 26 } 0 0 Player.black ⟨by decide, by decide⟩ (by decide) (by decide)
      (by decide) (by decide)⟩

end GoRs
